import Mathlib

/- Verification development for the r2-metadata-worker repository.

   Embedded sources:
   - src/index.ts: batch orchestrator (processAllMedia, processFile), the
     HTTP fetch handler and the cron trigger;
   - src/processors/pdf.ts: the PDF pipeline (processPdf, extractTags,
     cleanSummary, validateAndCleanOutput, generateTextBasedMetadata);
   - src/types.ts: the worker environment bindings.

   Modelling conventions:
   - JavaScript strings are Lean Strings; the JS string primitives used by
     the code (toLowerCase, toUpperCase, trim, includes, endsWith, split,
     substring-from-lastIndexOf, Set-based dedup) are re-implemented below
     on lists of characters, ASCII-faithfully (the code only manipulates
     ASCII key names, extensions and formatting markers).
   - The R2 bucket is a pair of association lists: media objects (key to
     blob metadata) and metadata sidecars (key to the written record); a
     put of `JSON.stringify(record)` is modelled as storing the record
     itself, and body bytes are abstracted since they only feed the AI
     prompts.
   - Workers AI calls are external collaborators; each call site is an
     oracle in `WorkerEnv`, keyed by the object key (the base64 data URL /
     prompt construction is absorbed into the oracle).  The shape analysis
     of responses (string vs `{response}` vs `{content}` vs malformed) and
     JS truthiness of the extracted field are embedded.
   - Rejected promises are modelled with `Except String`; a `catch` block
     is a `match` on the `.error` constructor. -/

/-! ## JS string primitives -/

/-- One character of JS `toLowerCase` (the code only ever lower-cases ASCII
key names, extensions and tags). -/
def jsCharToLower (c : Char) : Char :=
  if 65 ≤ c.toNat ∧ c.toNat ≤ 90 then Char.ofNat (c.toNat + 32) else c

/-- One character of JS `toUpperCase` (ASCII). -/
def jsCharToUpper (c : Char) : Char :=
  if 97 ≤ c.toNat ∧ c.toNat ≤ 122 then Char.ofNat (c.toNat - 32) else c

/-- JS `String.prototype.toLowerCase`. -/
def jsToLower (s : String) : String := ⟨s.data.map jsCharToLower⟩

/-- JS `String.prototype.toUpperCase`. -/
def jsToUpper (s : String) : String := ⟨s.data.map jsCharToUpper⟩

/-- JS whitespace test (`\s`, restricted to the ASCII whitespace the code
can meet in key names and model output). -/
def jsIsWs (c : Char) : Bool := c.isWhitespace

/-- JS `String.prototype.trim`. -/
def jsTrimList (l : List Char) : List Char :=
  ((l.dropWhile jsIsWs).reverse.dropWhile jsIsWs).reverse

/-- JS `String.prototype.trim` on strings. -/
def jsTrim (s : String) : String := ⟨jsTrimList s.data⟩

/-- Index of the first occurrence of `pat` in `l` (JS `indexOf`, with
`none` for `-1`). -/
def findSub (pat : List Char) : List Char → Option Nat
  | [] => if pat.isEmpty then some 0 else none
  | c :: rest =>
    if pat.isPrefixOf (c :: rest) then some 0
    else (findSub pat rest).map (· + 1)

/-- JS `String.prototype.includes`. -/
def jsIncludes (s pat : String) : Bool := (findSub pat.data s.data).isSome

/-- JS `String.prototype.endsWith`. -/
def jsEndsWith (s pat : String) : Bool :=
  pat.data.reverse.isPrefixOf s.data.reverse

/-- JS `String.prototype.startsWith`. -/
def jsStartsWith (s pat : String) : Bool := pat.data.isPrefixOf s.data

/-- JS `split` on a one-character-class regex (every separator splits,
empty segments kept, as `split(/[,;]/)` does). -/
def splitOnPred (p : Char → Bool) : List Char → List (List Char)
  | [] => [[]]
  | c :: rest =>
    let r := splitOnPred p rest
    if p c then [] :: r
    else
      match r with
      | [] => [[c]]
      | h :: t => (c :: h) :: t

/-- JS `split` on a `[...]+` regex, as used by the filename-word split:
maximal runs of separators split the string.  Empty segments (which JS
keeps at the two ends) are dropped here; the source immediately filters the
segments by `length > 2`, which erases that difference. -/
def wordsBy (p : Char → Bool) (l : List Char) : List String :=
  ((splitOnPred p l).filter (fun seg => !seg.isEmpty)).map (fun seg => (⟨seg⟩ : String))

/-- JS `[...new Set(l)]`: deduplication keeping first occurrences, with the
original order. -/
def jsSetDedupAux {α : Type} [DecidableEq α] : List α → List α → List α
  | _, [] => []
  | seen, x :: xs =>
    if x ∈ seen then jsSetDedupAux seen xs
    else x :: jsSetDedupAux (x :: seen) xs

/-- JS `[...new Set(l)]`. -/
def jsSetDedup {α : Type} [DecidableEq α] (l : List α) : List α :=
  jsSetDedupAux [] l

/-! ## Data model -/

/-- An object returned by `MEDIA_BUCKET.list` (`R2Object`): the fields the
code reads. -/
structure R2ListedObject where
  key : String
  size : Nat
  uploaded : Nat
deriving DecidableEq, Repr

/-- The body-bearing object returned by `MEDIA_BUCKET.get`; the byte body
is abstracted (it only feeds the AI prompt payloads, which live inside the
AI oracles). -/
structure MediaBlob where
  size : Nat
  uploaded : Nat
deriving DecidableEq, Repr

/-- The metadata JSON written at `<key>.metadata.json`.  The JSON object of
the source has a `summary` field on the PDF paths and a `caption` field on
the image path; both appear here as options. -/
structure MetadataRecord where
  filename : String
  type : String
  caption : Option String := none
  summary : Option String := none
  tags : List String
  size : Nat
  lastModified : Nat
  generatedAt : String
deriving DecidableEq, Repr

/-- The `stats` accumulator of `processAllMedia`. -/
structure RunStats where
  processed : Nat
  skipped : Nat
  errors : Nat
deriving DecidableEq, Repr

/-- The `options` argument of `processAllMedia`. -/
structure RunOptions where
  forceReprocess : Bool := false
deriving DecidableEq, Repr

/-- One page answered by `MEDIA_BUCKET.list`. -/
structure PageResp where
  objects : List R2ListedObject
  truncated : Bool
deriving DecidableEq, Repr

/-- Association-list lookup (first binding wins), used for both halves of
the bucket. -/
def alookup {α : Type} : List (String × α) → String → Option α
  | [], _ => none
  | (k, v) :: rest, key => if k = key then some v else alookup rest key

/-- Association-list update: `put` overwrites the binding for an existing
key and appends a binding for a fresh key. -/
def aput {α : Type} : List (String × α) → String → α → List (String × α)
  | [], key, v => [(key, v)]
  | (k, w) :: rest, key, v =>
    if k = key then (key, v) :: rest else (k, w) :: aput rest key v

/-- The R2 bucket: media blobs (only ever read by this worker) and the
metadata sidecars (read via `head`, written via `put`). -/
structure Bucket where
  media : List (String × MediaBlob)
  meta : List (String × MetadataRecord)
deriving DecidableEq, Repr

/-- `MEDIA_BUCKET.get` of a media object key. -/
def getMedia (b : Bucket) (key : String) : Option MediaBlob := alookup b.media key

/-- `MEDIA_BUCKET.put` of a metadata sidecar. -/
def putMeta (b : Bucket) (key : String) (md : MetadataRecord) : Bucket :=
  { b with meta := aput b.meta key md }

/-- A Workers-AI response value: a plain string, or an object whose
`response` and `content` fields may each be absent (or present but falsy
for JS). -/
inductive AIResp where
  | str : String → AIResp
  | obj : Option String → Option String → AIResp
deriving DecidableEq, Repr

/-- JS truthiness of an optional string field (absent or `""` is falsy). -/
def jsTruthyStr : Option String → Bool
  | some s => s != ""
  | none => false

/-- The shape analysis of the vision result in `processPdf`:
`typeof r === 'string'`, else `r.response`, else `r.content`, else the
"Invalid vision model response format" throw (`none`). -/
def visionContentOf : AIResp → Option String
  | .str s => some s
  | .obj r c => if jsTruthyStr r then r else if jsTruthyStr c then c else none

/-- The shape analysis of the instruct results (summary and both fallback
calls): `typeof r === 'string'`, else `r.response`, else a throw. -/
def basicContentOf : AIResp → Option String
  | .str s => some s
  | .obj r _ => if jsTruthyStr r then r else none

/-- The external collaborators of one run: the listing pages the store
answers, the failure behaviour of `head`/`put` per key, the four AI call
sites of the PDF pipeline keyed by object key, the image analyzer, and the
`new Date().toISOString()` clock. -/
structure WorkerEnv where
  pages : List (Except String PageResp)
  headFails : String → Option String
  putFails : String → Option String
  vision : String → Except String AIResp
  summarize : String → Except String AIResp
  fbExtract : String → Except String AIResp
  fbSummarize : String → Except String AIResp
  analyzeImage : String → Except String (String × List String)
  now : String

/-! ## Key classification (src/index.ts) -/

/-- The sidecar suffix of `index.ts` and `pdf.ts`. -/
def metadataSuffix : String := ".metadata.json"

/-- `` `${objectName}.metadata.json` ``. -/
def metadataKeyOf (key : String) : String := key ++ metadataSuffix

/-- `objectName.endsWith('.metadata.json')`. -/
def isSidecarKey (key : String) : Bool := jsEndsWith key metadataSuffix

/-- `objectName.substring(objectName.lastIndexOf('.')).toLowerCase()`.
When the key has no dot, `lastIndexOf` is `-1` and JS `substring(-1)`
yields the whole string. -/
def fileExtensionOf (key : String) : String :=
  if '.' ∈ key.data then
    jsToLower ⟨'.' :: (key.data.reverse.takeWhile (fun c => !(c == '.'))).reverse⟩
  else jsToLower key

/-- `const supportedExtensions = ['.jpg', '.jpeg', '.png', '.mp4', '.pdf']`. -/
def supportedExtensions : List String := [".jpg", ".jpeg", ".png", ".mp4", ".pdf"]

/-- The image branch test of `processFile`. -/
def imageExtensions : List String := [".jpg", ".jpeg", ".png"]

/-! ## Tag extraction (src/processors/pdf.ts, extractTags) -/

/-- A single-quote character, written by code point. -/
def squote : Char := Char.ofNat 39

/-- Remove a maximal leading run and a maximal trailing run of `c`
(`replace(/^c+|c+$/g, '')`). -/
def stripRunEnds (c : Char) (l : List Char) : List Char :=
  ((l.dropWhile (· == c)).reverse.dropWhile (· == c)).reverse

/-- Remove one leading `c` if present (`replace(/^c/, ...)` half of an
anchored alternation). -/
def stripOneLead (c : Char) (l : List Char) : List Char :=
  match l with
  | x :: xs => if x == c then xs else l
  | [] => l

/-- Remove one trailing `c` if present. -/
def stripOneTail (c : Char) (l : List Char) : List Char :=
  (stripOneLead c l.reverse).reverse

/-- The per-tag cleanup inside `extractTags`:
`tag.trim().toLowerCase()` then the four anchored `replace` calls removing
asterisk runs, double-quote runs, one single quote at each end and one
bracket at each end. -/
def cleanTag (s : String) : String :=
  let t := (jsToLower (jsTrim s)).data
  let t := stripRunEnds '*' t
  let t := stripRunEnds '"' t
  let t := stripOneTail squote (stripOneLead squote t)
  let t := stripOneTail ']' (stripOneLead '[' t)
  ⟨t⟩

/-- The group captured by `/TAGS:(.+?)($|(?:\n\n))/s`: everything after the
first `TAGS:` that is followed by at least one character, lazily up to the
first later `\n\n` or to the end of the string.  `none` models a failed
match. -/
def tagsGroupOf (text : String) : Option String :=
  match findSub "TAGS:".data text.data with
  | none => none
  | some i =>
    let rem := text.data.drop (i + 5)
    if rem.isEmpty then none
    else
      match (List.range rem.length).find?
          (fun j => decide (1 ≤ j) && "\n\n".data.isPrefixOf (rem.drop j)) with
      | some j => some ⟨rem.take j⟩
      | none => some ⟨rem⟩

/-- `extractTags` of `pdf.ts`: default `["pdf"]`, else the cleaned,
deduplicated tags with `'pdf'` prepended. -/
def extractTags (text : String) : List String :=
  match tagsGroupOf text with
  | none => ["pdf"]
  | some g =>
    let rawTags := (splitOnPred (fun c => c == ',' || c == ';') (jsTrim g).data).map
      (fun seg => cleanTag ⟨seg⟩)
    let extractedTags := rawTags.filter (fun t => !t.data.isEmpty)
    if extractedTags.isEmpty then ["pdf"]
    else jsSetDedup ("pdf" :: extractedTags)

/-! ## Summary cleanup (src/processors/pdf.ts, cleanSummary) -/

/-- Case-insensitive literal prefix strip: if the lower-cased input starts
with `pat` (given lower-cased), the matched characters are removed. -/
def stripLitCI (pat : String) (l : List Char) : Option (List Char) :=
  if pat.data.isPrefixOf (l.map jsCharToLower) then some (l.drop pat.data.length)
  else none

/-- Strip one optional `:` (the `:?` of several of the regexes). -/
def stripOptColon (l : List Char) : List Char :=
  match l with
  | c :: rest => if c == ':' then rest else l
  | [] => l

/-- `"here's"` (with a code-point single quote). -/
def heresStr : String := "here" ++ (⟨[squote]⟩ : String) ++ "s"

/-- `replace(/^(?:here is the response:?|here's the response:?|my response:?)/i, '')`. -/
def stripRespPhrase (l : List Char) : List Char :=
  match stripLitCI "here is the response" l with
  | some r => stripOptColon r
  | none =>
    match stripLitCI (heresStr ++ " the response") l with
    | some r => stripOptColon r
    | none =>
      match stripLitCI "my response" l with
      | some r => stripOptColon r
      | none => l

/-- `replace(/^(?:summary:?|content:?|description:?|analysis:?)/i, '')`. -/
def stripHeaderPhrase (l : List Char) : List Char :=
  match stripLitCI "summary" l with
  | some r => stripOptColon r
  | none =>
    match stripLitCI "content" l with
    | some r => stripOptColon r
    | none =>
      match stripLitCI "description" l with
      | some r => stripOptColon r
      | none =>
        match stripLitCI "analysis" l with
        | some r => stripOptColon r
        | none => l

/-- Global regex removal: scan left to right, removing every match of `m`
(`m` returns the rest after a match at the current position).  Fuel is the
input length; every step either consumes a character or a non-empty match. -/
def removeAllMatches (m : List Char → Option (List Char)) : Nat → List Char → List Char
  | 0, l => l
  | fuel + 1, l =>
    match l with
    | [] => []
    | c :: rest =>
      match m l with
      | some r => removeAllMatches m fuel r
      | none => c :: removeAllMatches m fuel rest

/-- Matcher of `/\*\*Summary:?\*\*/gi` at the current position. -/
def matchStarSummary (l : List Char) : Option (List Char) :=
  match stripLitCI "**summary" l with
  | none => none
  | some r =>
    let r := stripOptColon r
    if "**".data.isPrefixOf r then some (r.drop 2) else none

/-- Matcher of `/\*\*Summary \([^)]+\):?\*\*/gi` at the current position. -/
def matchStarSummaryParen (l : List Char) : Option (List Char) :=
  match stripLitCI "**summary (" l with
  | none => none
  | some r =>
    let inside := r.takeWhile (fun c => !(c == ')'))
    if inside.isEmpty then none
    else
      match r.drop inside.length with
      | ')' :: r2 =>
        let r3 := stripOptColon r2
        if "**".data.isPrefixOf r3 then some (r3.drop 2) else none
      | _ => none

/-- Matcher of a literal at the current position (for `/\*\*/g` etc.). -/
def matchLit (pat : String) (l : List Char) : Option (List Char) :=
  if pat.data.isPrefixOf l then some (l.drop pat.data.length) else none

/-- `replace(/^\s+/gm, '')`: at every line start, the maximal whitespace
run (which may swallow following newlines, as the JS regex does) is
removed; the remaining line is copied up to its newline. -/
def stripLineLeadingWs : Nat → List Char → List Char
  | 0, l => l
  | fuel + 1, l =>
    let l1 := l.dropWhile jsIsWs
    match l1.span (fun c => !(c == '\n')) with
    | (line, []) => line
    | (line, _ :: r) => line ++ '\n' :: stripLineLeadingWs fuel r

/-- `replace(/\n{3,}/g, '\n\n')`. -/
def squeezeNewlines : Nat → List Char → List Char
  | 0, l => l
  | _, [] => []
  | fuel + 1, c :: rest =>
    if c == '\n' then
      let run := 1 + (rest.takeWhile (· == '\n')).length
      let rest2 := rest.dropWhile (· == '\n')
      if 3 ≤ run then '\n' :: '\n' :: squeezeNewlines fuel rest2
      else List.replicate run '\n' ++ squeezeNewlines fuel rest2
    else c :: squeezeNewlines fuel rest

/-- `cleanSummary` of `pdf.ts`: cut at the case-insensitive `TAGS:`
section, strip the prefix phrases, remove the markdown patterns and all
asterisks, normalise line leading whitespace and newline runs, and trim. -/
def cleanSummary (text : String) : String :=
  let summary : List Char :=
    match findSub "TAGS:".data (jsToUpper text).data with
    | some i => (jsTrim ⟨text.data.take i⟩).data
    | none => text.data
  let summary := stripRespPhrase summary
  let summary := stripHeaderPhrase summary
  let summary := removeAllMatches matchStarSummary summary.length summary
  let summary := removeAllMatches matchStarSummaryParen summary.length summary
  let summary := removeAllMatches (matchLit "**") summary.length summary
  let summary := summary.filter (fun c => !(c == '*'))
  let summary := stripLineLeadingWs (summary.length + 1) summary
  let summary := squeezeNewlines (summary.length + 1) summary
  jsTrim ⟨summary⟩

/-! ## Output validation (src/processors/pdf.ts, validateAndCleanOutput) -/

/-- The "common issues" test guarding the aggressive summary cleanup. -/
def summaryNeedsAggro (s : String) : Bool :=
  jsIncludes s "Here is" || jsIncludes s "Summary:" || jsIncludes s "**" ||
    jsStartsWith s "\n"

/-- `replace(/^[\s\n]*(?:here is|here's)[^:\n]*:?[\s\n]*/i, '')`. -/
def stripAggroHere (l : List Char) : List Char :=
  let l1 := l.dropWhile jsIsWs
  let m :=
    match stripLitCI "here is" l1 with
    | some r => some r
    | none => stripLitCI heresStr l1
  match m with
  | none => l
  | some r =>
    let r := r.dropWhile (fun c => !(c == ':') && !(c == '\n'))
    let r := stripOptColon r
    r.dropWhile jsIsWs

/-- `replace(/^[\s\n]*(?:\*\*)?summary(?:\*\*)?:?[\s\n]*/i, '')`. -/
def stripAggroSummary (l : List Char) : List Char :=
  let l1 := l.dropWhile jsIsWs
  let l2 := match matchLit "**" l1 with | some r => r | none => l1
  match stripLitCI "summary" l2 with
  | none => l
  | some r =>
    let r := match matchLit "**" r with | some r2 => r2 | none => r
    let r := stripOptColon r
    r.dropWhile jsIsWs

/-- Matcher of `/\*\*[^*]*\*\*/g` at the current position. -/
def matchStarBlock (l : List Char) : Option (List Char) :=
  match matchLit "**" l with
  | none => none
  | some r =>
    let mid := r.takeWhile (fun c => !(c == '*'))
    match matchLit "**" (r.drop mid.length) with
    | some r2 => some r2
    | none => none

/-- The aggressive summary cleanup branch of `validateAndCleanOutput`. -/
def aggroCleanSummary (s : String) : String :=
  let l := stripAggroHere s.data
  let l := stripAggroSummary l
  let l := removeAllMatches matchStarBlock l.length l
  let l := squeezeNewlines (l.length + 1) l
  jsTrim ⟨l⟩

/-- Strip one leading literal `pat` if present. -/
def stripLitLead (pat : String) (l : List Char) : List Char :=
  match matchLit pat l with
  | some r => r
  | none => l

/-- Strip one trailing literal `pat` if present; `pat` is palindromic at
both uses (`**` and `""`). -/
def stripLitTail (pat : String) (l : List Char) : List Char :=
  (stripLitLead pat l.reverse).reverse

/-- The per-tag cleanup of `validateAndCleanOutput`: strip a leading and a
trailing `**`, a leading and a trailing `""`, then trim. -/
def validateTag (t : String) : String :=
  let l := stripLitTail "**" (stripLitLead "**" t.data)
  let l := stripLitTail "\"\"" (stripLitLead "\"\"" l)
  jsTrim ⟨l⟩

/-- `validateAndCleanOutput` of `pdf.ts`: conditionally aggressive summary
cleanup, per-tag cleanup, and a final `Set` dedup of the tags. -/
def validateAndCleanOutput (md : MetadataRecord) : MetadataRecord :=
  let summary :=
    match md.summary with
    | none => none
    | some s => some (if summaryNeedsAggro s then aggroCleanSummary s else s)
  { md with summary := summary, tags := jsSetDedup (md.tags.map validateTag) }

/-! ## PDF processing (src/processors/pdf.ts) -/

/-- `objectName.replace(/\.pdf$/i, '')`. -/
def stripPdfExt (key : String) : String :=
  if jsEndsWith (jsToLower key) ".pdf" then ⟨key.data.take (key.data.length - 4)⟩
  else key

/-- `generateTextBasedMetadata` of `pdf.ts`: two instruct calls (hex-bytes
extraction, then summary), each throwing on rejection or a malformed
shape; tags extracted and summary cleaned from the second response. -/
def generateTextBasedMetadata (env : WorkerEnv) (key : String) :
    Except String (String × List String) :=
  match env.fbExtract key with
  | .error e => .error e
  | .ok er =>
    match basicContentOf er with
    | none => .error "Failed to extract content in fallback mode"
    | some _extractedContent =>
      match env.fbSummarize key with
      | .error e => .error e
      | .ok sr =>
        match basicContentOf sr with
        | none => .error "Failed to generate summary in fallback mode"
        | some s => .ok (cleanSummary s, extractTags s)

/-- The inner `try` of `processPdf` (the visual approach): vision call,
shape analysis, summary call, shape analysis, tag extraction, summary
cleanup, `validateAndCleanOutput`, then the metadata `put`.  An `.error`
is a throw into the `aiError` catch. -/
def pdfMainPath (env : WorkerEnv) (b : Bucket) (key : String) (media : MediaBlob) :
    Except String Bucket :=
  match env.vision key with
  | .error e => .error e
  | .ok vr =>
    match visionContentOf vr with
    | none => .error "Invalid vision model response format"
    | some _visualContent =>
      match env.summarize key with
      | .error e => .error e
      | .ok sr =>
        match basicContentOf sr with
        | none => .error "Failed to generate summary from visual content"
        | some raw =>
          let metadata := validateAndCleanOutput
            { filename := key, type := "pdf", summary := some (cleanSummary raw),
              tags := extractTags raw, size := media.size,
              lastModified := media.uploaded, generatedAt := env.now }
          match env.putFails (metadataKeyOf key) with
          | some e => .error e
          | none => .ok (putMeta b (metadataKeyOf key) metadata)

/-- The text-based fallback `try` of `processPdf`: an `.error` is a throw
into the `fallbackError` catch. -/
def pdfFallbackPath (env : WorkerEnv) (b : Bucket) (key : String) (media : MediaBlob) :
    Except String Bucket :=
  match generateTextBasedMetadata env key with
  | .error e => .error e
  | .ok (summary, tags) =>
    let metadata : MetadataRecord :=
      { filename := key, type := "pdf", summary := some summary, tags := tags,
        size := media.size, lastModified := media.uploaded, generatedAt := env.now }
    match env.putFails (metadataKeyOf key) with
    | some e => .error e
    | none => .ok (putMeta b (metadataKeyOf key) metadata)

/-- The minimal-metadata branch of the `fallbackError` catch: filename
words become extra tags, the summary carries the main-path error message
(with the JS `aiError.message || "Unknown error"` truthiness).  An
`.error` is the final put rejection, swallowed by the outer catch. -/
def pdfMinimalPath (env : WorkerEnv) (b : Bucket) (key : String) (media : MediaBlob)
    (aiErrMsg : String) : Except String Bucket :=
  let filenameWords :=
    (wordsBy (fun c => c == '_' || c == '-' || jsIsWs c || c == '.')
      (stripPdfExt key).data).filter (fun w => 2 < w.data.length)
  let metadata : MetadataRecord :=
    { filename := key, type := "pdf",
      summary := some ("PDF processing failed: " ++
        (if aiErrMsg == "" then "Unknown error" else aiErrMsg)),
      tags := "pdf" :: "processing-error" :: filenameWords.take 3,
      size := media.size, lastModified := media.uploaded, generatedAt := env.now }
  match env.putFails (metadataKeyOf key) with
  | some e => .error e
  | none => .ok (putMeta b (metadataKeyOf key) metadata)

/-- `processPdf` of `pdf.ts`.  The outer `try`/`catch` swallows every
failure, so the function always returns a bucket and never rejects: a
missing object returns early, a main-path failure falls to the text
fallback, a fallback failure falls to the minimal write, and a failure of
the minimal write leaves the bucket unchanged. -/
def processPdf (env : WorkerEnv) (b : Bucket) (key : String) : Bucket :=
  match getMedia b key with
  | none => b
  | some media =>
    match pdfMainPath env b key media with
    | .ok b2 => b2
    | .error aiErr =>
      match pdfFallbackPath env b key media with
      | .ok b2 => b2
      | .error _ =>
        match pdfMinimalPath env b key media aiErr with
        | .ok b2 => b2
        | .error _ => b

/-! ## Image processing (spec-modelled) -/

/-- Modelled from the spec: `src/processors/image.ts` is imported by
`src/index.ts` but its source is not under `src/`.  Per the spec (the
Content Analyzer contract of section 6, the MetadataRecord invariant of
section 3, and the error taxonomy of section 7) it analyzes the image via
the content analyzer and writes a caption/tags MetadataRecord at
`<key>.metadata.json` with deduplicated, lower-cased tags; an analyzer or
write failure propagates to the caller (`processFile`), where it is
counted. -/
def processImage (env : WorkerEnv) (b : Bucket) (o : R2ListedObject) :
    Except String Bucket :=
  match env.analyzeImage o.key with
  | .error e => .error e
  | .ok (caption, tags) =>
    let metadata : MetadataRecord :=
      { filename := o.key, type := "image", caption := some caption,
        tags := jsSetDedup (tags.map jsToLower), size := o.size,
        lastModified := o.uploaded, generatedAt := env.now }
    match env.putFails (metadataKeyOf o.key) with
    | some e => .error e
    | none => .ok (putMeta b (metadataKeyOf o.key) metadata)

/-! ## Batch orchestrator (src/index.ts) -/

/-- Trace instrumentation of one run: the listing request for a page, the
`head` existence probe for an object, and the settlement (success or
failure) of the per-object task launched for an object of a page. -/
inductive Event where
  | listRequest : Nat → Event
  | headProbe : Nat → String → Event
  | settled : Nat → String → Bool → Event
deriving DecidableEq, Repr

/-- The page index an event belongs to. -/
def eventPage : Event → Nat
  | .listRequest n => n
  | .headProbe n _ => n
  | .settled n _ _ => n

/-- `processFile` of `index.ts`: branch on the (lower-cased) extension; the
`catch` increments `errors` and rethrows (the `.error` result), otherwise
`processed`/`skipped` is incremented.  Only the image processor can throw:
`processPdf` swallows all its failures. -/
def processFile (env : WorkerEnv) (b : Bucket) (st : RunStats)
    (o : R2ListedObject) (fileExtension : String) :
    Bucket × RunStats × Except String Unit :=
  if imageExtensions.contains fileExtension then
    match processImage env b o with
    | .ok b2 => (b2, { st with processed := st.processed + 1 }, .ok ())
    | .error e => (b, { st with errors := st.errors + 1 }, .error e)
  else if fileExtension == ".mp4" then
    (b, { st with skipped := st.skipped + 1 }, .ok ())
  else if fileExtension == ".pdf" then
    (processPdf env b o.key, { st with processed := st.processed + 1 }, .ok ())
  else (b, st, .ok ())

/-- The body of the per-object loop of `processAllMedia` for one listed
object of page `pageIdx`: sidecar keys are skipped silently, unsupported
extensions count as `skipped`, and otherwise the per-object task runs (the
`head` gate unless `forceReprocess`, then `processFile`), with the task
`catch` adding one more `errors` increment on a rethrown failure. -/
def processObject (env : WorkerEnv) (options : RunOptions) (pageIdx : Nat)
    (acc : Bucket × RunStats × List Event) (o : R2ListedObject) :
    Bucket × RunStats × List Event :=
  let (b, st, tr) := acc
  if isSidecarKey o.key then acc
  else
    let metadataFilename := metadataKeyOf o.key
    let fileExtension := fileExtensionOf o.key
    if !(supportedExtensions.contains fileExtension) then
      (b, { st with skipped := st.skipped + 1 }, tr)
    else if !options.forceReprocess then
      match env.headFails metadataFilename with
      | some _ =>
        (b, { st with errors := st.errors + 1 },
          tr ++ [.headProbe pageIdx o.key, .settled pageIdx o.key false])
      | none =>
        match alookup b.meta metadataFilename with
        | some _ =>
          (b, { st with skipped := st.skipped + 1 },
            tr ++ [.headProbe pageIdx o.key, .settled pageIdx o.key true])
        | none =>
          match processFile env b st o fileExtension with
          | (b2, st2, .ok _) =>
            (b2, st2, tr ++ [.headProbe pageIdx o.key, .settled pageIdx o.key true])
          | (b2, st2, .error _) =>
            (b2, { st2 with errors := st2.errors + 1 },
              tr ++ [.headProbe pageIdx o.key, .settled pageIdx o.key false])
    else
      match processFile env b st o fileExtension with
      | (b2, st2, .ok _) => (b2, st2, tr ++ [.settled pageIdx o.key true])
      | (b2, st2, .error _) =>
        (b2, { st2 with errors := st2.errors + 1 },
          tr ++ [.settled pageIdx o.key false])

/-- The `while (truncated)` loop of `processAllMedia`: request a page,
settle the whole wave of per-object tasks, advance the cursor.  A listing
rejection is the `catch` around the loop: one `errors` increment and the
accumulated stats are returned.  An exhausted page list models the store
answering `truncated = false`. -/
def runPages (env : WorkerEnv) (options : RunOptions) :
    List (Except String PageResp) → Nat → Bucket × RunStats × List Event →
    Bucket × RunStats × List Event
  | [], _, acc => acc
  | page :: rest, n, (b, st, tr) =>
    let tr2 := tr ++ [Event.listRequest n]
    match page with
    | .error _ => (b, { st with errors := st.errors + 1 }, tr2)
    | .ok p =>
      let acc2 := p.objects.foldl (processObject env options n) (b, st, tr2)
      if p.truncated then runPages env options rest (n + 1) acc2 else acc2

/-- `processAllMedia` of `index.ts`: zero stats, then the page loop. -/
def processAllMedia (env : WorkerEnv) (options : RunOptions) (b : Bucket) :
    Bucket × RunStats × List Event :=
  runPages env options env.pages 0 (b, ⟨0, 0, 0⟩, [])

/-- The pages a run consumes, with their indices: listing stops at a
listing failure (which contributes no objects), after a non-truncated
page, or when the store has no further pages. -/
def consumedPages : Nat → List (Except String PageResp) → List (Nat × List R2ListedObject)
  | _, [] => []
  | _, .error _ :: _ => []
  | n, .ok p :: rest =>
    (n, p.objects) :: (if p.truncated then consumedPages (n + 1) rest else [])

/-- All objects enumerated by a run's listing before any fatal failure. -/
def enumeratedObjects (pages : List (Except String PageResp)) : List R2ListedObject :=
  ((consumedPages 0 pages).map (·.2)).flatten

/-- Every object key any page of the store mentions (consumed or not);
used to bound the environment-health hypotheses. -/
def keysOfPages (pages : List (Except String PageResp)) : List String :=
  (pages.map (fun page =>
    match page with
    | .ok p => p.objects.map (·.key)
    | .error _ => [])).flatten

/-! ## HTTP trigger surface (src/index.ts, fetch) -/

/-- The cron/service-worker detection on the `User-Agent` header. -/
def isCronTrigger (userAgent : String) : Bool :=
  jsIncludes userAgent "Cloudflare-Workers" ||
  jsIncludes userAgent "Cloudflare-Scheduler" ||
  jsIncludes userAgent "Cronjob"

/-- The request data the `fetch` handler reads. -/
inductive HttpMethod where
  | get
  | post
  | other
deriving DecidableEq, Repr

/-- An incoming HTTP request: `formParses` models whether
`request.formData()` succeeds (on failure the code proceeds with
`forceReprocess = false`). -/
structure HttpRequest where
  method : HttpMethod
  path : String
  userAgent : String
  queryHasForce : Bool
  formParses : Bool
  formHasForce : Bool
deriving DecidableEq, Repr

/-- The responses the `fetch` handler can produce.  The two 500 JSON/HTML
branches guarded by a throwing `processAllMedia` are unreachable in the
model because `processAllMedia` returns normally on every input (its own
`catch` absorbs listing failures), matching the source.  The bindings of
`env` are always present in the model, so only the listing branch of
`/test-r2` is represented. -/
inductive FetchOutcome where
  | cronSuccess : Bool → RunStats → FetchOutcome
  | testR2 : Bool → FetchOutcome
  | postSuccess : RunStats → FetchOutcome
  | uiPage : FetchOutcome
deriving DecidableEq, Repr

/-- The HTTP status of each response. -/
def FetchOutcome.statusCode : FetchOutcome → Nat
  | .cronSuccess _ _ => 200
  | .testR2 ok => if ok then 200 else 500
  | .postSuccess _ => 200
  | .uiPage => 200

/-- Whether the `/test-r2` probe (`list({limit: 1})`) succeeds: the first
listing answer of the store is not a rejection. -/
def testR2ListOk (env : WorkerEnv) : Bool :=
  match env.pages with
  | .error _ :: _ => false
  | _ => true

/-- The `fetch` handler of `index.ts`: cron-identified requests run the
processor, `/test-r2` runs a read-only listing probe, POST requests run
the processor with the form flag, everything else renders the UI without
processing. -/
def fetchHandler (env : WorkerEnv) (b : Bucket) (req : HttpRequest) :
    FetchOutcome × Bucket :=
  if isCronTrigger req.userAgent then
    let forceReprocess := req.queryHasForce
    let r := processAllMedia env { forceReprocess := forceReprocess } b
    (.cronSuccess forceReprocess r.2.1, r.1)
  else if req.path == "/test-r2" then
    (.testR2 (testR2ListOk env), b)
  else if req.method == HttpMethod.post then
    let forceReprocess := req.formParses && req.formHasForce
    let r := processAllMedia env { forceReprocess := forceReprocess } b
    (.postSuccess r.2.1, r.1)
  else (.uiPage, b)

/-- The `scheduled` handler of `index.ts`: a cron tick runs the processor
with `forceReprocess = false`. -/
def scheduledHandler (env : WorkerEnv) (b : Bucket) : Bucket × RunStats × List Event :=
  processAllMedia env { forceReprocess := false } b

/-! ## Derived predicates and concrete test data -/

/-- Content extracted from a vision call seen end to end: `none` when the
call rejects or the response shape is invalid (either way the code
throws). -/
def respContentVision : Except String AIResp → Option String
  | .error _ => none
  | .ok r => visionContentOf r

/-- Content extracted from an instruct call seen end to end. -/
def respContentBasic : Except String AIResp → Option String
  | .error _ => none
  | .ok r => basicContentOf r

/-- Whether an `Except` result is a success. -/
def exceptOk {ε α : Type} : Except ε α → Bool
  | .ok _ => true
  | .error _ => false

/-- A string with no ASCII upper-case character. -/
def noUpperStr (t : String) : Prop :=
  ∀ c ∈ t.data, ¬(65 ≤ c.toNat ∧ c.toNat ≤ 90)

/-- The spec shape of a written tag list: no duplicates, no upper-case. -/
def cleanTagList (ts : List String) : Prop :=
  ts.Nodup ∧ ∀ t ∈ ts, noUpperStr t

instance : DecidablePred noUpperStr := fun t =>
  inferInstanceAs (Decidable (∀ c ∈ t.data, ¬(65 ≤ c.toNat ∧ c.toNat ≤ 90)))

instance : DecidablePred cleanTagList := fun ts =>
  inferInstanceAs (Decidable (ts.Nodup ∧ ∀ t ∈ ts, noUpperStr t))

/-- Extensions `processFile` actually processes (image or PDF; `.mp4` is
supported but skipped). -/
def processableExt (ext : String) : Bool :=
  imageExtensions.contains ext || ext == ".pdf"

/-- Environment health over a set of keys: `head` and `put` succeed for
the derived sidecar keys, the vision/summarize calls answer with a
well-formed non-empty shape, and the image analyzer succeeds. -/
def HealthyEnv (env : WorkerEnv) : Prop :=
  ∀ k ∈ keysOfPages env.pages,
    env.headFails (metadataKeyOf k) = none ∧
    env.putFails (metadataKeyOf k) = none ∧
    (respContentVision (env.vision k)).isSome = true ∧
    (respContentBasic (env.summarize k)).isSome = true ∧
    exceptOk (env.analyzeImage k) = true

/-- Every PDF key the listing can mention has a media object in the
bucket (`get` does not answer `null`). -/
def MediaPresent (env : WorkerEnv) (b : Bucket) : Prop :=
  ∀ k ∈ keysOfPages env.pages,
    fileExtensionOf k = ".pdf" → (getMedia b k).isSome = true

/-- Whether a listing answer is a successful, truncated page (the run
will request a further page after it). -/
def isTruncatedPage : Except String PageResp → Bool
  | .ok p => p.truncated
  | .error _ => false

/-- Whether a listing answer is a successful page. -/
def isOkPage : Except String PageResp → Bool
  | .ok _ => true
  | .error _ => false

/-- The objects of the pages consumed from index `n` on. -/
def consumedObjects (n : Nat) (pages : List (Except String PageResp)) :
    List R2ListedObject :=
  ((consumedPages n pages).map (·.2)).flatten

instance (env : WorkerEnv) : Decidable (HealthyEnv env) :=
  inferInstanceAs (Decidable (∀ k ∈ keysOfPages env.pages,
    env.headFails (metadataKeyOf k) = none ∧
    env.putFails (metadataKeyOf k) = none ∧
    (respContentVision (env.vision k)).isSome = true ∧
    (respContentBasic (env.summarize k)).isSome = true ∧
    exceptOk (env.analyzeImage k) = true))

instance (env : WorkerEnv) (b : Bucket) : Decidable (MediaPresent env b) :=
  inferInstanceAs (Decidable (∀ k ∈ keysOfPages env.pages,
    fileExtensionOf k = ".pdf" → (getMedia b k).isSome = true))

/-- A plain-string AI success response. -/
def okStrResp (s : String) : Except String AIResp := .ok (.str s)

/-- A healthy base environment for the concrete runs below. -/
def baseEnv : WorkerEnv where
  pages := []
  headFails := fun _ => none
  putFails := fun _ => none
  vision := fun _ => okStrResp "A scanned document with text."
  summarize := fun _ => okStrResp "A quarterly report.\n\nTAGS: alpha, Beta, alpha"
  fbExtract := fun _ => okStrResp "Looks like a PDF header."
  fbSummarize := fun _ => okStrResp "A fallback summary.\n\nTAGS: gamma"
  analyzeImage := fun _ => .ok ("a cat on a mat", ["Cat", "animal", "cat"])
  now := "2025-01-01T00:00:00.000Z"

/-- The empty bucket. -/
def emptyBucket : Bucket := ⟨[], []⟩

/-- A bucket holding one PDF whose filename words carry upper-case. -/
def reportsBucket : Bucket := ⟨[("pdf-Reports.pdf", ⟨9, 9⟩)], []⟩

/-- Environment whose store rejects every listing request. -/
def listFailEnv : WorkerEnv := { baseEnv with pages := [.error "connect timeout"] }

/-- Environment whose vision call rejects but whose fallback works. -/
def fallbackEnv : WorkerEnv :=
  { baseEnv with pages := [.ok ⟨[⟨"pdf-Reports.pdf", 9, 9⟩], false⟩],
                 vision := fun _ => .error "vision model unavailable" }

/-- Environment whose vision and fallback-extraction calls both reject,
driving `processPdf` into the minimal-metadata write. -/
def minimalEnv : WorkerEnv :=
  { fallbackEnv with fbExtract := fun _ => .error "inference unavailable" }

/-- Environment listing one image whose analyzer rejects. -/
def imgFailEnv : WorkerEnv :=
  { baseEnv with pages := [.ok ⟨[⟨"a.jpg", 10, 1⟩], false⟩],
                 analyzeImage := fun _ => .error "analyzer down" }

/-- Environment with one truncated page of one unsupported object followed
by a listing failure. -/
def midFailEnv : WorkerEnv :=
  { baseEnv with pages := [.ok ⟨[⟨"d.txt", 5, 4⟩], true⟩, .error "connect timeout"] }

/-- Healthy two-page environment: one PDF candidate per page. -/
def twoPageEnv : WorkerEnv :=
  { baseEnv with pages := [.ok ⟨[⟨"a.pdf", 1, 1⟩], true⟩, .ok ⟨[⟨"b.pdf", 2, 2⟩], false⟩] }

/-- The bucket backing `twoPageEnv`, with a stale sidecar for `a.pdf`. -/
def twoPdfBucket : Bucket :=
  ⟨[("a.pdf", ⟨1, 1⟩), ("b.pdf", ⟨2, 2⟩)],
   [("a.pdf.metadata.json", ⟨"a.pdf", "pdf", none, some "old", ["pdf"], 1, 1, "2024-01-01T00:00:00.000Z"⟩)]⟩

/-- A plain browser GET request for a path. -/
def browserGet (path : String) : HttpRequest :=
  ⟨.get, path, "Mozilla/5.0", false, false, false⟩

/-- A plain browser POST of the manual-execution form. -/
def browserPost : HttpRequest := ⟨.post, "/", "Mozilla/5.0", false, true, false⟩

/-! ## Basic lemmas: store, dedup, characters -/

theorem alookup_aput_self {α : Type} (l : List (String × α)) (k : String) (v : α) :
    alookup (aput l k v) k = some v := by
  induction l with
  | nil => simp [aput, alookup]
  | cons h t ih =>
    obtain ⟨k', w⟩ := h
    by_cases hk : k' = k <;> simp [aput, alookup, hk, ih]

theorem alookup_aput_ne {α : Type} (l : List (String × α)) (k k' : String) (v : α)
    (h : k' ≠ k) : alookup (aput l k v) k' = alookup l k' := by
  induction l with
  | nil => simp [aput, alookup, Ne.symm h]
  | cons hd t ih =>
    obtain ⟨k₀, w⟩ := hd
    by_cases hk : k₀ = k
    · subst hk
      simp [aput, alookup, Ne.symm h]
    · simp only [aput, if_neg hk, alookup]
      by_cases hk' : k₀ = k' <;> simp [hk', ih]

theorem alookup_aput_isSome {α : Type} (l : List (String × α)) (k k' : String) (v : α)
    (h : (alookup l k').isSome = true) : (alookup (aput l k v) k').isSome = true := by
  by_cases hk : k' = k
  · subst hk
    simp [alookup_aput_self]
  · rw [alookup_aput_ne l k k' v hk]
    exact h

theorem mem_jsSetDedupAux {α : Type} [DecidableEq α] {x : α} :
    ∀ (seen l : List α), x ∈ jsSetDedupAux seen l → x ∈ l := by
  intro seen l
  induction l generalizing seen with
  | nil => simp [jsSetDedupAux]
  | cons y ys ih =>
    intro h
    by_cases hy : y ∈ seen
    · simp only [jsSetDedupAux, if_pos hy] at h
      exact List.mem_cons_of_mem _ (ih _ h)
    · simp only [jsSetDedupAux, if_neg hy, List.mem_cons] at h
      rcases h with h | h
      · exact h ▸ List.mem_cons_self _ _
      · exact List.mem_cons_of_mem _ (ih _ h)

theorem jsSetDedupAux_not_mem_seen {α : Type} [DecidableEq α] {x : α} :
    ∀ (seen l : List α), x ∈ jsSetDedupAux seen l → x ∉ seen := by
  intro seen l
  induction l generalizing seen with
  | nil => simp [jsSetDedupAux]
  | cons y ys ih =>
    intro h
    by_cases hy : y ∈ seen
    · simp only [jsSetDedupAux, if_pos hy] at h
      exact ih _ h
    · simp only [jsSetDedupAux, if_neg hy, List.mem_cons] at h
      rcases h with h | h
      · exact h ▸ hy
      · intro hs
        exact ih _ h (List.mem_cons_of_mem _ hs)

theorem jsSetDedupAux_nodup {α : Type} [DecidableEq α] :
    ∀ (seen l : List α), (jsSetDedupAux seen l).Nodup := by
  intro seen l
  induction l generalizing seen with
  | nil => simp [jsSetDedupAux]
  | cons y ys ih =>
    by_cases hy : y ∈ seen
    · simpa [jsSetDedupAux, if_pos hy] using ih seen
    · simp only [jsSetDedupAux, if_neg hy]
      refine List.nodup_cons.mpr ⟨fun hmem => ?_, ih _⟩
      exact jsSetDedupAux_not_mem_seen _ _ hmem (List.mem_cons_self _ _)

theorem jsSetDedup_nodup {α : Type} [DecidableEq α] (l : List α) :
    (jsSetDedup l).Nodup := jsSetDedupAux_nodup [] l

theorem mem_jsSetDedup {α : Type} [DecidableEq α] {x : α} {l : List α}
    (h : x ∈ jsSetDedup l) : x ∈ l := mem_jsSetDedupAux [] l h

theorem jsCharToLower_not_upper (c : Char) :
    ¬(65 ≤ (jsCharToLower c).toNat ∧ (jsCharToLower c).toNat ≤ 90) := by
  unfold jsCharToLower
  split
  · rename_i h
    have hv : (c.toNat + 32).isValidChar := Or.inl (by omega)
    have h1 : (Char.ofNat (c.toNat + 32)).toNat = c.toNat + 32 := by
      unfold Char.ofNat
      rw [dif_pos hv]
      rfl
    rw [h1]
    omega
  · rename_i h
    exact h

/-! ## Tag cleanliness lemmas -/

theorem stripRunEnds_subset (c : Char) (l : List Char) :
    ∀ x ∈ stripRunEnds c l, x ∈ l := by
  intro x hx
  unfold stripRunEnds at hx
  rw [List.mem_reverse] at hx
  have hx2 := (List.dropWhile_sublist (· == c)).subset hx
  rw [List.mem_reverse] at hx2
  exact (List.dropWhile_sublist (· == c)).subset hx2

theorem stripOneLead_subset (c : Char) (l : List Char) :
    ∀ x ∈ stripOneLead c l, x ∈ l := by
  intro x hx
  cases l with
  | nil => exact hx
  | cons y ys =>
    simp only [stripOneLead] at hx
    by_cases hy : (y == c) = true
    · rw [if_pos hy] at hx
      exact List.mem_cons_of_mem _ hx
    · rwa [if_neg hy] at hx

theorem stripOneTail_subset (c : Char) (l : List Char) :
    ∀ x ∈ stripOneTail c l, x ∈ l := by
  intro x hx
  unfold stripOneTail at hx
  rw [List.mem_reverse] at hx
  have := stripOneLead_subset c l.reverse x hx
  rwa [List.mem_reverse] at this

theorem jsTrimList_subset (l : List Char) : ∀ x ∈ jsTrimList l, x ∈ l := by
  intro x hx
  unfold jsTrimList at hx
  rw [List.mem_reverse] at hx
  have hx2 := (List.dropWhile_sublist jsIsWs).subset hx
  rw [List.mem_reverse] at hx2
  exact (List.dropWhile_sublist jsIsWs).subset hx2

theorem stripLitLead_subset (pat : String) (l : List Char) :
    ∀ x ∈ stripLitLead pat l, x ∈ l := by
  intro x hx
  unfold stripLitLead matchLit at hx
  by_cases hp : pat.data.isPrefixOf l = true
  · rw [if_pos hp] at hx
    exact (List.drop_sublist _ _).subset hx
  · rwa [if_neg hp] at hx

theorem stripLitTail_subset (pat : String) (l : List Char) :
    ∀ x ∈ stripLitTail pat l, x ∈ l := by
  intro x hx
  unfold stripLitTail at hx
  rw [List.mem_reverse] at hx
  have := stripLitLead_subset pat l.reverse x hx
  rwa [List.mem_reverse] at this

theorem noUpper_jsToLower (s : String) : noUpperStr (jsToLower s) := by
  intro c hc
  unfold jsToLower at hc
  simp only [List.mem_map] at hc
  obtain ⟨a, _, rfl⟩ := hc
  exact jsCharToLower_not_upper a

theorem cleanTag_noUpper (s : String) : noUpperStr (cleanTag s) := by
  intro c hc
  unfold cleanTag at hc
  have h1 := stripOneTail_subset ']' _ c hc
  have h2 := stripOneLead_subset '[' _ c h1
  have h3 := stripOneTail_subset squote _ c h2
  have h4 := stripOneLead_subset squote _ c h3
  have h5 := stripRunEnds_subset '"' _ c h4
  have h6 := stripRunEnds_subset '*' _ c h5
  exact noUpper_jsToLower (jsTrim s) c h6

theorem validateTag_noUpper {t : String} (h : noUpperStr t) :
    noUpperStr (validateTag t) := by
  intro c hc
  unfold validateTag at hc
  have h1 := jsTrimList_subset _ c hc
  have h2 := stripLitTail_subset "\"\"" _ c h1
  have h3 := stripLitLead_subset "\"\"" _ c h2
  have h4 := stripLitTail_subset "**" _ c h3
  have h5 := stripLitLead_subset "**" _ c h4
  exact h c h5

theorem extractTags_noUpper (s : String) : ∀ t ∈ extractTags s, noUpperStr t := by
  intro t ht
  have hpdf : noUpperStr "pdf" := by decide
  rcases hg : tagsGroupOf s with _ | g
  · simp only [extractTags, hg, List.mem_singleton] at ht
    exact ht ▸ hpdf
  · simp only [extractTags, hg] at ht
    split at ht
    · simp only [List.mem_singleton] at ht
      exact ht ▸ hpdf
    · have ht2 := mem_jsSetDedup ht
      rcases List.mem_cons.mp ht2 with h | h
      · exact h ▸ hpdf
      · have h3 := List.mem_of_mem_filter h
        simp only [List.mem_map] at h3
        obtain ⟨seg, _, rfl⟩ := h3
        exact cleanTag_noUpper _

theorem extractTags_clean (s : String) : cleanTagList (extractTags s) := by
  constructor
  · rcases hg : tagsGroupOf s with _ | g
    · simp only [extractTags, hg]
      decide
    · simp only [extractTags, hg]
      split
      · decide
      · exact jsSetDedup_nodup _
  · exact extractTags_noUpper s

theorem dedup_mapped_clean {f : String → String} {tags : List String}
    (h : ∀ t ∈ tags, noUpperStr (f t)) : cleanTagList (jsSetDedup (tags.map f)) := by
  refine ⟨jsSetDedup_nodup _, fun t ht => ?_⟩
  have := mem_jsSetDedup ht
  simp only [List.mem_map] at this
  obtain ⟨a, ha, rfl⟩ := this
  exact h a ha

/-! ## C9: a vanished PDF object is counted as processed -/

/-- C9: if `get` answers `null` for a candidate PDF object, `processPdf`
returns early without writing and without raising, and `processFile`
nevertheless increments `processed`. -/
theorem processFile_pdf_vanished (env : WorkerEnv) (b : Bucket) (st : RunStats)
    (o : R2ListedObject) (h : getMedia b o.key = none) :
    processFile env b st o ".pdf" =
      (b, { st with processed := st.processed + 1 }, .ok ()) := by
  have h1 : imageExtensions.contains ".pdf" = false := by decide
  have h2 : ((".pdf" : String) == ".mp4") = false := by decide
  have h3 : ((".pdf" : String) == ".pdf") = true := by decide
  simp only [processFile, h1, h2, h3, Bool.false_eq_true, if_false, if_true,
    processPdf, h]

/-- Witness for C9 at a concrete vanished object. -/
theorem processFile_pdf_vanished_witness :
    getMedia emptyBucket "x.pdf" = none ∧
    processFile baseEnv emptyBucket ⟨0, 0, 0⟩ ⟨"x.pdf", 1, 1⟩ ".pdf" =
      (emptyBucket, ⟨1, 0, 0⟩, .ok ()) :=
  ⟨by decide,
   processFile_pdf_vanished baseEnv emptyBucket ⟨0, 0, 0⟩ ⟨"x.pdf", 1, 1⟩ (by decide)⟩

/-! ## C3: a fatal listing error still yields the 200 success response -/

/-- Counterexample to C3: with the store rejecting the first listing page,
the POST-triggered run returns the success response (status 200) carrying
`errors = 1`; no 500-equivalent response is produced. -/
theorem fetch_listing_failure_counterexample :
    (fetchHandler listFailEnv emptyBucket browserPost).1 =
      .postSuccess ⟨0, 0, 1⟩ ∧
    (fetchHandler listFailEnv emptyBucket browserPost).1.statusCode = 200 ∧
    ¬(fetchHandler listFailEnv emptyBucket browserPost).1.statusCode = 500 := by
  decide

/-- C3 amended: a fatal listing failure is absorbed by `processAllMedia`
(one `errors` increment), so a POST-triggered run returns the ordinary
success response with status 200 and `errors = 1` in the stats —
indistinguishable by status from a completed run with errors. -/
theorem fetch_listing_failure_success_response (env : WorkerEnv) (b : Bucket)
    (req : HttpRequest) (msg : String) (rest : List (Except String PageResp))
    (hp : env.pages = .error msg :: rest)
    (hc : isCronTrigger req.userAgent = false)
    (hpath : (req.path == "/test-r2") = false)
    (hm : req.method = .post) :
    fetchHandler env b req = (.postSuccess ⟨0, 0, 1⟩, b) ∧
    (fetchHandler env b req).1.statusCode = 200 := by
  have hrun : ∀ options, processAllMedia env options b =
      (b, ⟨0, 0, 1⟩, [Event.listRequest 0]) := by
    intro options
    simp [processAllMedia, hp, runPages]
  have hm2 : (req.method == HttpMethod.post) = true := by rw [hm]; decide
  have h1 : fetchHandler env b req = (.postSuccess ⟨0, 0, 1⟩, b) := by
    simp [fetchHandler, hc, hpath, hm2, hrun]
  exact ⟨h1, by rw [h1]; rfl⟩

/-- Witness for the amended C3 at a concrete failing store. -/
theorem fetch_listing_failure_success_response_witness :
    listFailEnv.pages = .error "connect timeout" :: [] ∧
    isCronTrigger browserPost.userAgent = false ∧
    (browserPost.path == "/test-r2") = false ∧
    browserPost.method = .post ∧
    fetchHandler listFailEnv emptyBucket browserPost =
      (.postSuccess ⟨0, 0, 1⟩, emptyBucket) ∧
    (fetchHandler listFailEnv emptyBucket browserPost).1.statusCode = 200 := by
  have h := fetch_listing_failure_success_response listFailEnv emptyBucket
    browserPost "connect timeout" [] rfl (by decide) (by decide) rfl
  exact ⟨rfl, by decide, by decide, rfl, h.1, h.2⟩

/-! ## C10: non-cron GET requests process nothing (but /test-r2 is JSON) -/

/-- Counterexample to C10 as stated: a plain-browser GET of `/test-r2`
returns the JSON diagnostic response, not the UI page (it still processes
nothing). -/
theorem fetch_get_testR2_counterexample :
    (fetchHandler baseEnv emptyBucket (browserGet "/test-r2")).1 = .testR2 true ∧
    ¬(fetchHandler baseEnv emptyBucket (browserGet "/test-r2")).1 = .uiPage := by
  decide

/-- C10 amended: a GET whose User-Agent is not cron-identified runs no
processing and writes nothing (the bucket is returned unchanged): it
renders the UI page, except for the read-only `/test-r2` JSON diagnostic. -/
theorem fetch_get_noncron_readonly (env : WorkerEnv) (b : Bucket) (req : HttpRequest)
    (hm : req.method = .get) (hc : isCronTrigger req.userAgent = false) :
    (fetchHandler env b req).2 = b ∧
    ((req.path == "/test-r2") = true ∧
        (fetchHandler env b req).1 = .testR2 (testR2ListOk env) ∨
     (req.path == "/test-r2") = false ∧ (fetchHandler env b req).1 = .uiPage) := by
  have hm2 : (req.method == HttpMethod.post) = false := by rw [hm]; decide
  by_cases hp : (req.path == "/test-r2") = true
  · exact ⟨by simp [fetchHandler, hc, hp], Or.inl ⟨hp, by simp [fetchHandler, hc, hp]⟩⟩
  · have hp2 : (req.path == "/test-r2") = false := by simpa using hp
    exact ⟨by simp [fetchHandler, hc, hp2, hm2],
      Or.inr ⟨hp2, by simp [fetchHandler, hc, hp2, hm2]⟩⟩

/-- Witness for the amended C10 at a concrete browser GET. -/
theorem fetch_get_noncron_readonly_witness :
    (browserGet "/").method = .get ∧
    isCronTrigger (browserGet "/").userAgent = false ∧
    ((fetchHandler baseEnv emptyBucket (browserGet "/")).2 = emptyBucket ∧
      (((browserGet "/").path == "/test-r2") = true ∧
          (fetchHandler baseEnv emptyBucket (browserGet "/")).1 =
            .testR2 (testR2ListOk baseEnv) ∨
       ((browserGet "/").path == "/test-r2") = false ∧
          (fetchHandler baseEnv emptyBucket (browserGet "/")).1 = .uiPage)) :=
  ⟨rfl, by decide, fetch_get_noncron_readonly baseEnv emptyBucket (browserGet "/")
    rfl (by decide)⟩



/-! ## C8: tag cleanliness of written records -/

theorem alookup_putMeta_self (b : Bucket) (k : String) (md : MetadataRecord) :
    alookup (putMeta b k md).meta k = some md := by
  simp [putMeta, alookup_aput_self]

theorem generateTextBasedMetadata_shape (env : WorkerEnv) (key : String)
    (p : String × List String) (h : generateTextBasedMetadata env key = .ok p) :
    ∃ s, p = (cleanSummary s, extractTags s) := by
  unfold generateTextBasedMetadata at h
  cases h1 : env.fbExtract key with
  | error e => rw [h1] at h; exact absurd h (by simp)
  | ok er =>
    rw [h1] at h
    dsimp only at h
    cases h2 : basicContentOf er with
    | none => rw [h2] at h; exact absurd h (by simp)
    | some ex =>
      rw [h2] at h
      dsimp only at h
      cases h3 : env.fbSummarize key with
      | error e => rw [h3] at h; exact absurd h (by simp)
      | ok sr =>
        rw [h3] at h
        dsimp only at h
        cases h4 : basicContentOf sr with
        | none => rw [h4] at h; exact absurd h (by simp)
        | some s =>
          rw [h4] at h
          dsimp only at h
          injection h with h
          exact ⟨s, h.symm⟩

/-- Counterexample to C8: the minimal error-recovery write puts raw
filename words into the tags, producing a duplicate `"pdf"` and the
upper-case tag `"Reports"`. -/
theorem processPdf_minimal_tags_counterexample :
    (alookup (processPdf minimalEnv reportsBucket "pdf-Reports.pdf").meta
        "pdf-Reports.pdf.metadata.json").map (fun r => r.tags) =
      some ["pdf", "processing-error", "pdf", "Reports"] ∧
    ¬cleanTagList ["pdf", "processing-error", "pdf", "Reports"] := by
  decide

/-- C8 amended: records written by the PDF main path, the PDF text-based
fallback path, and the image path always carry deduplicated, lower-cased
tags; only the minimal error-recovery write can violate this. -/
theorem pdf_written_tags_clean (env : WorkerEnv) (b b2 : Bucket) (key : String)
    (media : MediaBlob) :
    (pdfMainPath env b key media = .ok b2 →
      ∃ r, alookup b2.meta (metadataKeyOf key) = some r ∧ cleanTagList r.tags) ∧
    (pdfFallbackPath env b key media = .ok b2 →
      ∃ r, alookup b2.meta (metadataKeyOf key) = some r ∧ cleanTagList r.tags) ∧
    (∀ o : R2ListedObject, processImage env b o = .ok b2 →
      ∃ r, alookup b2.meta (metadataKeyOf o.key) = some r ∧ cleanTagList r.tags) := by
  refine ⟨?_, ?_, ?_⟩
  · intro h
    unfold pdfMainPath at h
    cases hv : env.vision key with
    | error e => rw [hv] at h; exact absurd h (by simp)
    | ok vr =>
      rw [hv] at h
      dsimp only at h
      cases hvc : visionContentOf vr with
      | none => rw [hvc] at h; exact absurd h (by simp)
      | some v =>
        rw [hvc] at h
        dsimp only at h
        cases hs : env.summarize key with
        | error e => rw [hs] at h; exact absurd h (by simp)
        | ok sr =>
          rw [hs] at h
          dsimp only at h
          cases hb : basicContentOf sr with
          | none => rw [hb] at h; exact absurd h (by simp)
          | some raw =>
            rw [hb] at h
            dsimp only at h
            cases hput : env.putFails (metadataKeyOf key) with
            | some e => rw [hput] at h; exact absurd h (by simp)
            | none =>
              rw [hput] at h
              dsimp only at h
              injection h with h
              subst h
              refine ⟨_, alookup_putMeta_self b _ _, ?_⟩
              unfold validateAndCleanOutput
              exact dedup_mapped_clean
                (fun t ht => validateTag_noUpper (extractTags_noUpper raw t ht))
  · intro h
    unfold pdfFallbackPath at h
    cases hg : generateTextBasedMetadata env key with
    | error e => rw [hg] at h; exact absurd h (by simp)
    | ok p =>
      rw [hg] at h
      dsimp only at h
      obtain ⟨s, rfl⟩ := generateTextBasedMetadata_shape env key p hg
      dsimp only at h
      cases hput : env.putFails (metadataKeyOf key) with
      | some e => rw [hput] at h; exact absurd h (by simp)
      | none =>
        rw [hput] at h
        dsimp only at h
        injection h with h
        subst h
        exact ⟨_, alookup_putMeta_self b _ _, extractTags_clean s⟩
  · intro o h
    unfold processImage at h
    cases ha : env.analyzeImage o.key with
    | error e => rw [ha] at h; exact absurd h (by simp)
    | ok p =>
      rw [ha] at h
      dsimp only at h
      obtain ⟨caption, tags⟩ := p
      dsimp only at h
      cases hput : env.putFails (metadataKeyOf o.key) with
      | some e => rw [hput] at h; exact absurd h (by simp)
      | none =>
        rw [hput] at h
        dsimp only at h
        injection h with h
        subst h
        exact ⟨_, alookup_putMeta_self b _ _,
          dedup_mapped_clean (fun t _ => noUpper_jsToLower t)⟩

/-- Witness for the amended C8: the fallback path at a concrete
environment writes a record whose tags are clean. -/
theorem pdf_written_tags_clean_witness :
    pdfFallbackPath fallbackEnv reportsBucket "pdf-Reports.pdf" ⟨9, 9⟩ =
      .ok ⟨[("pdf-Reports.pdf", ⟨9, 9⟩)],
           [("pdf-Reports.pdf.metadata.json",
             ⟨"pdf-Reports.pdf", "pdf", none, some "A fallback summary.",
              ["pdf", "gamma"], 9, 9, "2025-01-01T00:00:00.000Z"⟩)]⟩ ∧
    (∃ r, alookup
        (⟨[("pdf-Reports.pdf", ⟨9, 9⟩)],
          [("pdf-Reports.pdf.metadata.json",
            ⟨"pdf-Reports.pdf", "pdf", none, some "A fallback summary.",
             ["pdf", "gamma"], 9, 9, "2025-01-01T00:00:00.000Z"⟩)]⟩ : Bucket).meta
        (metadataKeyOf "pdf-Reports.pdf") = some r ∧ cleanTagList r.tags) := by
  have h : pdfFallbackPath fallbackEnv reportsBucket "pdf-Reports.pdf" ⟨9, 9⟩ =
      .ok ⟨[("pdf-Reports.pdf", ⟨9, 9⟩)],
           [("pdf-Reports.pdf.metadata.json",
             ⟨"pdf-Reports.pdf", "pdf", none, some "A fallback summary.",
              ["pdf", "gamma"], 9, 9, "2025-01-01T00:00:00.000Z"⟩)]⟩ := by rfl
  exact ⟨h,
    (pdf_written_tags_clean fallbackEnv reportsBucket _ "pdf-Reports.pdf" ⟨9, 9⟩).2.1 h⟩

/-! ## C2: PDF analyzer/put failures are swallowed, not counted -/

theorem pdfMainPath_vision_failure (env : WorkerEnv) (b : Bucket) (key : String)
    (media : MediaBlob) (hv : respContentVision (env.vision key) = none) :
    ∃ e, pdfMainPath env b key media = .error e := by
  unfold pdfMainPath
  cases h : env.vision key with
  | error e => exact ⟨e, rfl⟩
  | ok vr =>
    rw [h] at hv
    simp only [respContentVision] at hv
    dsimp only
    rw [hv]
    exact ⟨_, rfl⟩

theorem pdfFallbackPath_success (env : WorkerEnv) (b : Bucket) (key : String)
    (media : MediaBlob) (ex s : String)
    (h1 : respContentBasic (env.fbExtract key) = some ex)
    (h2 : respContentBasic (env.fbSummarize key) = some s)
    (hput : env.putFails (metadataKeyOf key) = none) :
    pdfFallbackPath env b key media =
      .ok (putMeta b (metadataKeyOf key)
        ⟨key, "pdf", none, some (cleanSummary s), extractTags s,
         media.size, media.uploaded, env.now⟩) := by
  unfold pdfFallbackPath generateTextBasedMetadata
  cases hf : env.fbExtract key with
  | error e => rw [hf] at h1; simp [respContentBasic] at h1
  | ok er =>
    rw [hf] at h1
    simp only [respContentBasic] at h1
    dsimp only
    rw [h1]
    dsimp only
    cases hs : env.fbSummarize key with
    | error e => rw [hs] at h2; simp [respContentBasic] at h2
    | ok sr =>
      rw [hs] at h2
      simp only [respContentBasic] at h2
      dsimp only
      rw [h2]
      dsimp only
      rw [hput]

/-- Counterexample to C2: at a concrete store where the vision analyzer
rejects for `pdf-Reports.pdf` but the text fallback works, the run counts
the object as `processed` (not `errors`) and durably writes a fallback
metadata record. -/
theorem processPdf_analyzer_failure_counterexample :
    respContentVision (fallbackEnv.vision "pdf-Reports.pdf") = none ∧
    (processFile fallbackEnv reportsBucket ⟨0, 0, 0⟩
        ⟨"pdf-Reports.pdf", 9, 9⟩ ".pdf").2.1 = ⟨1, 0, 0⟩ ∧
    (alookup (processFile fallbackEnv reportsBucket ⟨0, 0, 0⟩
        ⟨"pdf-Reports.pdf", 9, 9⟩ ".pdf").1.meta
      "pdf-Reports.pdf.metadata.json").isSome = true := by
  decide

/-- C2 amended: when a PDF object's analyzer (vision) call fails while the
text fallback and the put succeed, `processPdf` swallows the failure and
durably writes a fallback metadata record; the orchestrator increments
`processed`, and `errors` is left unchanged (so the object will be
skipped, not retried, by the next non-forced run). -/
theorem processPdf_analyzer_failure_swallowed (env : WorkerEnv) (b : Bucket)
    (key ex s : String) (media : MediaBlob) (st : RunStats) (o : R2ListedObject)
    (hk : o.key = key)
    (hm : getMedia b key = some media)
    (hv : respContentVision (env.vision key) = none)
    (h1 : respContentBasic (env.fbExtract key) = some ex)
    (h2 : respContentBasic (env.fbSummarize key) = some s)
    (hput : env.putFails (metadataKeyOf key) = none) :
    processPdf env b key =
      putMeta b (metadataKeyOf key)
        ⟨key, "pdf", none, some (cleanSummary s), extractTags s,
         media.size, media.uploaded, env.now⟩ ∧
    processFile env b st o ".pdf" =
      (processPdf env b key, { st with processed := st.processed + 1 }, .ok ()) ∧
    (processFile env b st o ".pdf").2.1.errors = st.errors := by
  obtain ⟨e, hmain⟩ := pdfMainPath_vision_failure env b key media hv
  have hfb := pdfFallbackPath_success env b key media ex s h1 h2 hput
  have hpp : processPdf env b key =
      putMeta b (metadataKeyOf key)
        ⟨key, "pdf", none, some (cleanSummary s), extractTags s,
         media.size, media.uploaded, env.now⟩ := by
    unfold processPdf
    rw [hm]
    dsimp only
    rw [hmain]
    dsimp only
    rw [hfb]
  have hexts : imageExtensions.contains ".pdf" = false := by decide
  have hmp4 : ((".pdf" : String) == ".mp4") = false := by decide
  have hpdf : ((".pdf" : String) == ".pdf") = true := by decide
  have hpf : processFile env b st o ".pdf" =
      (processPdf env b key, { st with processed := st.processed + 1 }, .ok ()) := by
    simp only [processFile, hexts, hmp4, hpdf, Bool.false_eq_true, if_false,
      if_true, hk]
  exact ⟨hpp, hpf, by rw [hpf]⟩

/-- Witness for the amended C2 at a concrete failing analyzer. -/
theorem processPdf_analyzer_failure_swallowed_witness :
    getMedia reportsBucket "pdf-Reports.pdf" = some ⟨9, 9⟩ ∧
    respContentVision (fallbackEnv.vision "pdf-Reports.pdf") = none ∧
    processFile fallbackEnv reportsBucket ⟨0, 0, 0⟩
        ⟨"pdf-Reports.pdf", 9, 9⟩ ".pdf" =
      (processPdf fallbackEnv reportsBucket "pdf-Reports.pdf", ⟨1, 0, 0⟩, .ok ()) ∧
    (processFile fallbackEnv reportsBucket ⟨0, 0, 0⟩
        ⟨"pdf-Reports.pdf", 9, 9⟩ ".pdf").2.1.errors = 0 := by
  have h := processPdf_analyzer_failure_swallowed fallbackEnv reportsBucket
    "pdf-Reports.pdf" "Looks like a PDF header." "A fallback summary.\n\nTAGS: gamma"
    ⟨9, 9⟩ ⟨0, 0, 0⟩ ⟨"pdf-Reports.pdf", 9, 9⟩ rfl (by decide) (by decide)
    (by decide) (by decide) (by decide)
  exact ⟨by decide, by decide, h.2.1, h.2.2⟩

/-! ## C1: a failing per-object task increments errors twice -/

/-- C1 (code bug): with one enumerated image whose analyzer fails under
`forceReprocess`, `processFile` increments `errors` and rethrows, and the
orchestrator's catch increments `errors` again: the run reports
`errors = 2` for a single enumerated object, so
`processed + skipped + errors` exceeds the number of enumerated
non-sidecar objects. -/
theorem run_double_counts_failing_image :
    (processAllMedia imgFailEnv ⟨true⟩ emptyBucket).2.1 = ⟨0, 0, 2⟩ ∧
    (enumeratedObjects imgFailEnv.pages).length = 1 ∧
    ¬((0 : Nat) + 0 + 2 = 1) := by
  decide

/-! ## C4: a listing-page failure aborts the loop with one extra error -/

theorem runPages_fatal_listing (env : WorkerEnv) (options : RunOptions)
    (good : List (Except String PageResp)) (msg : String)
    (rest : List (Except String PageResp)) :
    ∀ (n : Nat) (b : Bucket) (st : RunStats) (tr : List Event),
    (∀ page ∈ good, isTruncatedPage page = true) →
    runPages env options (good ++ .error msg :: rest) n (b, st, tr) =
      ((runPages env options good n (b, st, tr)).1,
       { (runPages env options good n (b, st, tr)).2.1 with
         errors := (runPages env options good n (b, st, tr)).2.1.errors + 1 },
       (runPages env options good n (b, st, tr)).2.2 ++
         [Event.listRequest (n + good.length)]) := by
  induction good with
  | nil =>
    intro n b st tr _
    simp [runPages]
  | cons page good' ih =>
    intro n b st tr hg
    have hpage := hg page (List.mem_cons_self _ _)
    cases page with
    | error e => simp [isTruncatedPage] at hpage
    | ok p =>
      have htr : p.truncated = true := by simpa [isTruncatedPage] using hpage
      have hg' : ∀ q ∈ good', isTruncatedPage q = true :=
        fun q hq => hg q (List.mem_cons_of_mem _ hq)
      simp only [List.cons_append, runPages, htr, if_true]
      have heta : ∀ acc : Bucket × RunStats × List Event,
          acc = (acc.1, acc.2.1, acc.2.2) := fun acc => rfl
      rw [heta (List.foldl (processObject env options n) (b, st, tr ++ [Event.listRequest n])
        p.objects)]
      have happ : good'.append (Except.error msg :: rest) =
          good' ++ (Except.error msg :: rest) := rfl
      rw [happ, ih (n + 1) _ _ _ hg']
      have hlen : n + 1 + good'.length = n + (good'.length + 1) := by omega
      simp [hlen, List.length_cons]

/-- C4: a failing listing-page request aborts the page loop at once; the
run returns the bucket, per-object outcomes and trace accumulated over the
earlier pages, with `errors` incremented by exactly one. -/
theorem listing_failure_aborts_run (env : WorkerEnv) (options : RunOptions)
    (b : Bucket) (good rest : List (Except String PageResp)) (msg : String)
    (hpages : env.pages = good ++ .error msg :: rest)
    (hg : ∀ page ∈ good, isTruncatedPage page = true) :
    processAllMedia env options b =
      ((runPages env options good 0 (b, ⟨0, 0, 0⟩, [])).1,
       { (runPages env options good 0 (b, ⟨0, 0, 0⟩, [])).2.1 with
         errors := (runPages env options good 0 (b, ⟨0, 0, 0⟩, [])).2.1.errors + 1 },
       (runPages env options good 0 (b, ⟨0, 0, 0⟩, [])).2.2 ++
         [Event.listRequest good.length]) := by
  unfold processAllMedia
  rw [hpages]
  have h := runPages_fatal_listing env options good msg rest 0 b ⟨0, 0, 0⟩ [] hg
  simpa using h

/-- Witness for C4: one truncated page (one unsupported object, counted
as skipped) followed by a listing failure yields `skipped = 1`,
`errors = 1` and a halted trace. -/
theorem listing_failure_aborts_run_witness :
    midFailEnv.pages =
      ([Except.ok ⟨[⟨"d.txt", 5, 4⟩], true⟩] : List (Except String PageResp)) ++
        .error "connect timeout" :: [] ∧
    (∀ page ∈ ([Except.ok ⟨[⟨"d.txt", 5, 4⟩], true⟩] : List (Except String PageResp)),
      isTruncatedPage page = true) ∧
    processAllMedia midFailEnv ⟨false⟩ emptyBucket =
      (emptyBucket, ⟨0, 1, 1⟩, [Event.listRequest 0, Event.listRequest 1]) :=
  ⟨rfl, by decide, by
    rw [listing_failure_aborts_run midFailEnv ⟨false⟩ emptyBucket
      ([Except.ok ⟨[⟨"d.txt", 5, 4⟩], true⟩] : List (Except String PageResp)) []
      "connect timeout" rfl (by decide)]
    decide⟩

/-! ## C7: wave ordering and non-short-circuiting join -/

theorem processObject_trace (env : WorkerEnv) (options : RunOptions) (n : Nat)
    (b : Bucket) (st : RunStats) (tr : List Event) (o : R2ListedObject) :
    ∃ Δ, (processObject env options n (b, st, tr) o).2.2 = tr ++ Δ ∧
      (∀ e ∈ Δ, eventPage e = n) ∧
      (options.forceReprocess = true → ∀ i k, Event.headProbe i k ∉ Δ) ∧
      (isSidecarKey o.key = false →
        supportedExtensions.contains (fileExtensionOf o.key) = true →
        ∃ ok, Event.settled n o.key ok ∈ Δ) := by
  unfold processObject
  by_cases hsc : isSidecarKey o.key = true
  · refine ⟨[], by simp [hsc], by simp, by simp, fun h1 _ => ?_⟩
    rw [h1] at hsc
    exact absurd hsc (by simp)
  · have hsc' : isSidecarKey o.key = false := by simpa using hsc
    by_cases hsup : supportedExtensions.contains (fileExtensionOf o.key) = true
    · have hmem : fileExtensionOf o.key ∈ supportedExtensions := by simpa using hsup
      by_cases hf : options.forceReprocess = true
      · rcases hpf : processFile env b st o (fileExtensionOf o.key) with ⟨b2, st2, r⟩
        cases r with
        | ok u =>
          refine ⟨[Event.settled n o.key true], ?_, by simp [eventPage], by simp,
            fun _ _ => ⟨true, by simp⟩⟩
          simp [hsc', hmem, hf, hpf]
        | error e =>
          refine ⟨[Event.settled n o.key false], ?_, by simp [eventPage], by simp,
            fun _ _ => ⟨false, by simp⟩⟩
          simp [hsc', hmem, hf, hpf]
      · have hf' : options.forceReprocess = false := by simpa using hf
        cases hh : env.headFails (metadataKeyOf o.key) with
        | some e =>
          refine ⟨[Event.headProbe n o.key, Event.settled n o.key false], ?_,
            by simp [eventPage], fun hforce => absurd hforce hf,
            fun _ _ => ⟨false, by simp⟩⟩
          simp [hsc', hmem, hf', hh]
        | none =>
          cases hl : alookup b.meta (metadataKeyOf o.key) with
          | some r =>
            refine ⟨[Event.headProbe n o.key, Event.settled n o.key true], ?_,
              by simp [eventPage], fun hforce => absurd hforce hf,
              fun _ _ => ⟨true, by simp⟩⟩
            simp [hsc', hmem, hf', hh, hl]
          | none =>
            rcases hpf : processFile env b st o (fileExtensionOf o.key) with ⟨b2, st2, r⟩
            cases r with
            | ok u =>
              refine ⟨[Event.headProbe n o.key, Event.settled n o.key true], ?_,
                by simp [eventPage], fun hforce => absurd hforce hf,
                fun _ _ => ⟨true, by simp⟩⟩
              simp [hsc', hmem, hf', hh, hl, hpf]
            | error e =>
              refine ⟨[Event.headProbe n o.key, Event.settled n o.key false], ?_,
                by simp [eventPage], fun hforce => absurd hforce hf,
                fun _ _ => ⟨false, by simp⟩⟩
              simp [hsc', hmem, hf', hh, hl, hpf]
    · have hsup' : supportedExtensions.contains (fileExtensionOf o.key) = false := by
        simpa using hsup
      have hmem' : ¬fileExtensionOf o.key ∈ supportedExtensions := by simpa using hsup
      refine ⟨[], ?_, by simp, by simp, fun _ h2 => absurd h2 hsup⟩
      simp [hsc', hmem']

theorem foldl_processObject_trace (env : WorkerEnv) (options : RunOptions) (n : Nat)
    (objs : List R2ListedObject) :
    ∀ (b : Bucket) (st : RunStats) (tr : List Event),
    ∃ Δ, (List.foldl (processObject env options n) (b, st, tr) objs).2.2 = tr ++ Δ ∧
      (∀ e ∈ Δ, eventPage e = n) ∧
      (options.forceReprocess = true → ∀ i k, Event.headProbe i k ∉ Δ) ∧
      (∀ o ∈ objs, isSidecarKey o.key = false →
        supportedExtensions.contains (fileExtensionOf o.key) = true →
        ∃ ok, Event.settled n o.key ok ∈ Δ) := by
  induction objs with
  | nil => exact fun b st tr => ⟨[], by simp, by simp, by simp, by simp⟩
  | cons o objs' ih =>
    intro b st tr
    obtain ⟨Δ₁, h1, h2, h3, h4⟩ := processObject_trace env options n b st tr o
    rcases hobj : processObject env options n (b, st, tr) o with ⟨b2, st2, tr2⟩
    have htr2 : tr2 = tr ++ Δ₁ := by rw [hobj] at h1; exact h1
    obtain ⟨Δ₂, g1, g2, g3, g4⟩ := ih b2 st2 tr2
    refine ⟨Δ₁ ++ Δ₂, ?_, ?_, ?_, ?_⟩
    · rw [List.foldl_cons, hobj, g1, htr2, List.append_assoc]
    · intro e he
      rcases List.mem_append.mp he with h | h
      · exact h2 e h
      · exact g2 e h
    · intro hforce i k hmem
      rcases List.mem_append.mp hmem with h | h
      · exact h3 hforce i k h
      · exact g3 hforce i k h
    · intro q hq hq1 hq2
      rcases List.mem_cons.mp hq with h | h
      · subst h
        obtain ⟨ok, hok⟩ := h4 hq1 hq2
        exact ⟨ok, List.mem_append_left _ hok⟩
      · obtain ⟨ok, hok⟩ := g4 q h hq1 hq2
        exact ⟨ok, List.mem_append_right _ hok⟩

theorem runPages_trace (env : WorkerEnv) (options : RunOptions) :
    ∀ (pages : List (Except String PageResp)) (n : Nat) (b : Bucket)
      (st : RunStats) (tr : List Event),
    ∃ Δ, (runPages env options pages n (b, st, tr)).2.2 = tr ++ Δ ∧
      (∀ e ∈ Δ, n ≤ eventPage e) ∧
      (options.forceReprocess = true → ∀ i k, Event.headProbe i k ∉ Δ) ∧
      (∀ i objs, (i, objs) ∈ consumedPages n pages → ∀ o ∈ objs,
        isSidecarKey o.key = false →
        supportedExtensions.contains (fileExtensionOf o.key) = true →
        ∃ ok, Event.settled i o.key ok ∈ Δ) := by
  intro pages
  induction pages with
  | nil => exact fun n b st tr => ⟨[], by simp [runPages], by simp, by simp,
      by simp [consumedPages]⟩
  | cons page rest ih =>
    intro n b st tr
    cases page with
    | error msg =>
      refine ⟨[Event.listRequest n], by simp [runPages], ?_, by simp,
        by simp [consumedPages]⟩
      intro e he
      simp only [List.mem_singleton] at he
      simp [he, eventPage]
    | ok p =>
      obtain ⟨Δf, f1, f2, f3, f4⟩ :=
        foldl_processObject_trace env options n p.objects b st (tr ++ [Event.listRequest n])
      rcases hacc : List.foldl (processObject env options n)
          (b, st, tr ++ [Event.listRequest n]) p.objects with ⟨b2, st2, tr2⟩
      have htr2 : tr2 = (tr ++ [Event.listRequest n]) ++ Δf := by
        rw [hacc] at f1; exact f1
      by_cases htrunc : p.truncated = true
      · obtain ⟨Δr, r1, r2, r3, r4⟩ := ih (n + 1) b2 st2 tr2
        refine ⟨[Event.listRequest n] ++ Δf ++ Δr, ?_, ?_, ?_, ?_⟩
        · have : runPages env options (Except.ok p :: rest) n (b, st, tr) =
              runPages env options rest (n + 1) (b2, st2, tr2) := by
            simp [runPages, htrunc, hacc]
          rw [this, r1, htr2]
          simp [List.append_assoc]
        · intro e he
          rcases List.mem_append.mp he with h | h
          · rcases List.mem_append.mp h with h' | h'
            · simp only [List.mem_singleton] at h'
              simp [h', eventPage]
            · exact le_of_eq (f2 e h').symm
          · exact Nat.le_of_succ_le (r2 e h)
        · intro hforce i k hmem
          rcases List.mem_append.mp hmem with h | h
          · rcases List.mem_append.mp h with h' | h'
            · simp at h'
            · exact f3 hforce i k h'
          · exact r3 hforce i k h
        · intro i objs hio o ho ho1 ho2
          simp only [consumedPages, htrunc, if_true, List.mem_cons] at hio
          rcases hio with h | h
          · obtain ⟨hi, hobjs⟩ := Prod.mk.injEq .. ▸ h
            subst hi
            obtain ⟨ok, hok⟩ := f4 o (hobjs ▸ ho) ho1 ho2
            exact ⟨ok, List.mem_append_left _ (List.mem_append_right _ hok)⟩
          · obtain ⟨ok, hok⟩ := r4 i objs h o ho ho1 ho2
            exact ⟨ok, List.mem_append_right _ hok⟩
      · have htrunc' : p.truncated = false := by simpa using htrunc
        refine ⟨[Event.listRequest n] ++ Δf, ?_, ?_, ?_, ?_⟩
        · have : runPages env options (Except.ok p :: rest) n (b, st, tr) =
              (b2, st2, tr2) := by
            simp [runPages, htrunc', hacc]
          rw [this, htr2]
          simp [List.append_assoc]
        · intro e he
          rcases List.mem_append.mp he with h | h
          · simp only [List.mem_singleton] at h
            simp [h, eventPage]
          · exact le_of_eq (f2 e h).symm
        · intro hforce i k hmem
          rcases List.mem_append.mp hmem with h | h
          · simp at h
          · exact f3 hforce i k h
        · intro i objs hio o ho ho1 ho2
          simp only [consumedPages, htrunc', if_false, Bool.false_eq_true,
            List.mem_cons, List.not_mem_nil, or_false] at hio
          obtain ⟨hi, hobjs⟩ := Prod.mk.injEq .. ▸ hio
          subst hi
          obtain ⟨ok, hok⟩ := f4 o (hobjs ▸ ho) ho1 ho2
          exact ⟨ok, List.mem_append_right _ hok⟩

theorem runPages_trace_pairwise (env : WorkerEnv) (options : RunOptions) :
    ∀ (pages : List (Except String PageResp)) (n : Nat) (b : Bucket)
      (st : RunStats) (tr : List Event),
    List.Pairwise (fun a b => eventPage a ≤ eventPage b) tr →
    (∀ e ∈ tr, eventPage e ≤ n) →
    List.Pairwise (fun a b => eventPage a ≤ eventPage b)
      (runPages env options pages n (b, st, tr)).2.2 ∧
    (∀ e ∈ (runPages env options pages n (b, st, tr)).2.2,
      eventPage e ≤ n + pages.length) := by
  intro pages
  induction pages with
  | nil =>
    intro n b st tr hp hb
    refine ⟨by simpa [runPages] using hp, ?_⟩
    intro e he
    simp only [runPages] at he
    exact (hb e he).trans (Nat.le_add_right n _)
  | cons page rest ih =>
    intro n b st tr hp hb
    cases page with
    | error msg =>
      constructor
      · simp only [runPages]
        rw [List.pairwise_append]
        refine ⟨hp, List.pairwise_singleton _ _, ?_⟩
        intro a ha e he
        simp only [List.mem_singleton] at he
        subst he
        simpa [eventPage] using hb a ha
      · intro e he
        simp only [runPages, List.mem_append, List.mem_singleton] at he
        rcases he with h | h
        · exact (hb e h).trans (Nat.le_add_right n _)
        · subst h
          simp only [eventPage]
          exact Nat.le_add_right n _
    | ok p =>
      obtain ⟨Δf, f1, f2, _, _⟩ :=
        foldl_processObject_trace env options n p.objects b st (tr ++ [Event.listRequest n])
      rcases hacc : List.foldl (processObject env options n)
          (b, st, tr ++ [Event.listRequest n]) p.objects with ⟨b2, st2, tr2⟩
      have htr2 : tr2 = tr ++ ([Event.listRequest n] ++ Δf) := by
        rw [hacc] at f1
        have h0 : tr2 = tr ++ [Event.listRequest n] ++ Δf := f1
        rw [List.append_assoc] at h0
        exact h0
      have hblock : ∀ e ∈ [Event.listRequest n] ++ Δf, eventPage e = n := by
        intro e he
        rcases List.mem_append.mp he with h | h
        · simp only [List.mem_singleton] at h
          simp [h, eventPage]
        · exact f2 e h
      have hp2 : List.Pairwise (fun a b => eventPage a ≤ eventPage b) tr2 := by
        rw [htr2, List.pairwise_append]
        refine ⟨hp, List.pairwise_of_forall_mem_list ?_, ?_⟩
        · intro a ha e he
          rw [hblock a ha, hblock e he]
        · intro a ha e he
          rw [hblock e he]
          exact hb a ha
      have hb2 : ∀ e ∈ tr2, eventPage e ≤ n + 1 := by
        intro e he
        rw [htr2] at he
        rcases List.mem_append.mp he with h | h
        · exact (hb e h).trans (Nat.le_succ n)
        · exact le_of_eq (hblock e h) |>.trans (Nat.le_succ n)
      by_cases htrunc : p.truncated = true
      · have heq : runPages env options (Except.ok p :: rest) n (b, st, tr) =
            runPages env options rest (n + 1) (b2, st2, tr2) := by
          simp [runPages, htrunc, hacc]
        rw [heq]
        obtain ⟨ihp, ihb⟩ := ih (n + 1) b2 st2 tr2 hp2 hb2
        refine ⟨ihp, fun e he => ?_⟩
        have := ihb e he
        simpa [Nat.add_comm, Nat.add_assoc, Nat.add_left_comm] using this
      · have htrunc' : p.truncated = false := by simpa using htrunc
        have heq : runPages env options (Except.ok p :: rest) n (b, st, tr) =
            (b2, st2, tr2) := by
          simp [runPages, htrunc', hacc]
        rw [heq]
        refine ⟨hp2, fun e he => ?_⟩
        refine (hb2 e he).trans ?_
        simp only [List.length_cons]
        omega

/-- C7: pages are requested strictly in order — in the run trace, any
task settlement that appears after the request for page `j` belongs to a
page `i ≥ j` (equivalently, page `j + 1` is only requested once every
task of page `j` has settled) — and the wave join never short-circuits:
every candidate object of every consumed page has a settlement event in
the trace, regardless of the failure of any sibling task. -/
theorem run_wave_ordering (env : WorkerEnv) (options : RunOptions) (b : Bucket) :
    (∀ pre mid post j i k ok,
      (processAllMedia env options b).2.2 =
        pre ++ Event.listRequest j :: (mid ++ Event.settled i k ok :: post) →
      j ≤ i) ∧
    (∀ i objs, (i, objs) ∈ consumedPages 0 env.pages → ∀ o ∈ objs,
      isSidecarKey o.key = false →
      supportedExtensions.contains (fileExtensionOf o.key) = true →
      ∃ ok, Event.settled i o.key ok ∈ (processAllMedia env options b).2.2) := by
  constructor
  · intro pre mid post j i k ok hdec
    have hpw : List.Pairwise (fun a e => eventPage a ≤ eventPage e)
        ((processAllMedia env options b).2.2) :=
      (runPages_trace_pairwise env options env.pages 0 b ⟨0, 0, 0⟩ []
        (by simp) (by simp)).1
    rw [hdec] at hpw
    have h1 := (List.pairwise_append.mp hpw).2.1
    have h2 := (List.pairwise_cons.mp h1).1 (Event.settled i k ok) (by simp)
    simpa [eventPage] using h2
  · intro i objs hio o ho h1 h2
    obtain ⟨Δ, hΔ, _, _, h4⟩ := runPages_trace env options env.pages 0 b ⟨0, 0, 0⟩ []
    obtain ⟨ok, hok⟩ := h4 i objs hio o ho h1 h2
    refine ⟨ok, ?_⟩
    have heq : (processAllMedia env options b).2.2 = Δ := by
      rw [show (processAllMedia env options b).2.2 =
        (runPages env options env.pages 0 (b, ⟨0, 0, 0⟩, [])).2.2 from rfl, hΔ]
      simp
    rw [heq]
    exact hok

/-- Witness for C7 at a concrete two-page run: the page-1 candidate has a
settlement event, and the concrete trace decomposition around the page-1
list request yields the ordering bound. -/
theorem run_wave_ordering_witness :
    ((1, [⟨"b.pdf", 2, 2⟩]) ∈ consumedPages 0 twoPageEnv.pages ∧
      ∃ ok, Event.settled 1 "b.pdf" ok ∈
        (processAllMedia twoPageEnv ⟨true⟩ twoPdfBucket).2.2) ∧
    ((processAllMedia twoPageEnv ⟨true⟩ twoPdfBucket).2.2 =
        [] ++ Event.listRequest 0 ::
          ([Event.settled 0 "a.pdf" true] ++ Event.settled 1 "b.pdf" true :: []) →
      (0 : Nat) ≤ 1) := by
  constructor
  · exact ⟨by decide, (run_wave_ordering twoPageEnv ⟨true⟩ twoPdfBucket).2
      1 [⟨"b.pdf", 2, 2⟩] (by decide) ⟨"b.pdf", 2, 2⟩ (by decide) (by decide)
      (by decide)⟩
  · intro hdec
    exact (run_wave_ordering twoPageEnv ⟨true⟩ twoPdfBucket).1
      [] [Event.settled 0 "a.pdf" true] [] 0 1 "b.pdf" true hdec

/-! ## Bucket-shape lemmas: every write lands at the object's own sidecar
key and carries a fresh `generatedAt` -/

theorem pdfMainPath_shape (env : WorkerEnv) (b : Bucket) (key : String)
    (media : MediaBlob) :
    (∃ e, pdfMainPath env b key media = .error e) ∨
    (∃ md, md.generatedAt = env.now ∧
      pdfMainPath env b key media = .ok (putMeta b (metadataKeyOf key) md)) := by
  unfold pdfMainPath
  cases hv : env.vision key with
  | error e => exact Or.inl ⟨e, rfl⟩
  | ok vr =>
    dsimp only
    cases hvc : visionContentOf vr with
    | none => exact Or.inl ⟨_, rfl⟩
    | some v =>
      dsimp only
      cases hs : env.summarize key with
      | error e => exact Or.inl ⟨e, rfl⟩
      | ok sr =>
        dsimp only
        cases hb : basicContentOf sr with
        | none => exact Or.inl ⟨_, rfl⟩
        | some raw =>
          dsimp only
          cases hput : env.putFails (metadataKeyOf key) with
          | some e => exact Or.inl ⟨e, rfl⟩
          | none => exact Or.inr ⟨_, rfl, rfl⟩

theorem pdfFallbackPath_shape (env : WorkerEnv) (b : Bucket) (key : String)
    (media : MediaBlob) :
    (∃ e, pdfFallbackPath env b key media = .error e) ∨
    (∃ md, md.generatedAt = env.now ∧
      pdfFallbackPath env b key media = .ok (putMeta b (metadataKeyOf key) md)) := by
  unfold pdfFallbackPath
  cases hg : generateTextBasedMetadata env key with
  | error e => exact Or.inl ⟨e, rfl⟩
  | ok p =>
    dsimp only
    obtain ⟨s, tags⟩ := p
    cases hput : env.putFails (metadataKeyOf key) with
    | some e => exact Or.inl ⟨e, rfl⟩
    | none => exact Or.inr ⟨_, rfl, rfl⟩

theorem pdfMinimalPath_shape (env : WorkerEnv) (b : Bucket) (key : String)
    (media : MediaBlob) (msg : String) :
    (∃ e, pdfMinimalPath env b key media msg = .error e) ∨
    (∃ md, md.generatedAt = env.now ∧
      pdfMinimalPath env b key media msg = .ok (putMeta b (metadataKeyOf key) md)) := by
  unfold pdfMinimalPath
  cases hput : env.putFails (metadataKeyOf key) with
  | some e => exact Or.inl ⟨e, rfl⟩
  | none => exact Or.inr ⟨_, rfl, rfl⟩

theorem processPdf_shape (env : WorkerEnv) (b : Bucket) (key : String) :
    processPdf env b key = b ∨
    ∃ md, md.generatedAt = env.now ∧
      processPdf env b key = putMeta b (metadataKeyOf key) md := by
  unfold processPdf
  cases hm : getMedia b key with
  | none => exact Or.inl rfl
  | some media =>
    dsimp only
    rcases pdfMainPath_shape env b key media with ⟨e, hmain⟩ | ⟨md, hgen, hmain⟩
    · rw [hmain]
      dsimp only
      rcases pdfFallbackPath_shape env b key media with ⟨e2, hfb⟩ | ⟨md, hgen, hfb⟩
      · rw [hfb]
        dsimp only
        rcases pdfMinimalPath_shape env b key media e with ⟨e3, hmin⟩ | ⟨md, hgen, hmin⟩
        · rw [hmin]
          exact Or.inl rfl
        · rw [hmin]
          exact Or.inr ⟨md, hgen, rfl⟩
      · rw [hfb]
        exact Or.inr ⟨md, hgen, rfl⟩
    · rw [hmain]
      exact Or.inr ⟨md, hgen, rfl⟩

theorem processImage_shape (env : WorkerEnv) (b : Bucket) (o : R2ListedObject) :
    (∃ e, processImage env b o = .error e) ∨
    (∃ md, md.generatedAt = env.now ∧
      processImage env b o = .ok (putMeta b (metadataKeyOf o.key) md)) := by
  unfold processImage
  cases ha : env.analyzeImage o.key with
  | error e => exact Or.inl ⟨e, rfl⟩
  | ok p =>
    dsimp only
    obtain ⟨caption, tags⟩ := p
    cases hput : env.putFails (metadataKeyOf o.key) with
    | some e => exact Or.inl ⟨e, rfl⟩
    | none => exact Or.inr ⟨_, rfl, rfl⟩

theorem processFile_bucket_shape (env : WorkerEnv) (b : Bucket) (st : RunStats)
    (o : R2ListedObject) (ext : String) :
    (processFile env b st o ext).1 = b ∨
    ∃ md, md.generatedAt = env.now ∧
      (processFile env b st o ext).1 = putMeta b (metadataKeyOf o.key) md := by
  unfold processFile
  by_cases h1 : imageExtensions.contains ext = true
  · simp only [h1, if_true]
    rcases processImage_shape env b o with ⟨e, him⟩ | ⟨md, hgen, him⟩
    · rw [him]
      exact Or.inl (by trivial)
    · rw [him]
      exact Or.inr ⟨md, hgen, rfl⟩
  · simp only [h1, if_false, Bool.false_eq_true]
    by_cases h2 : (ext == ".mp4") = true
    · simp only [h2, if_true]
      exact Or.inl (by trivial)
    · simp only [h2, if_false, Bool.false_eq_true]
      by_cases h3 : (ext == ".pdf") = true
      · simp only [h3, if_true]
        exact processPdf_shape env b o.key
      · simp only [h3, if_false, Bool.false_eq_true]
        exact Or.inl (by trivial)

theorem processObject_bucket_shape (env : WorkerEnv) (options : RunOptions)
    (n : Nat) (b : Bucket) (st : RunStats) (tr : List Event) (o : R2ListedObject) :
    (processObject env options n (b, st, tr) o).1 = b ∨
    ∃ md, md.generatedAt = env.now ∧
      (processObject env options n (b, st, tr) o).1 =
        putMeta b (metadataKeyOf o.key) md := by
  unfold processObject
  by_cases hsc : isSidecarKey o.key = true
  · simp only [hsc, if_true]
    exact Or.inl (by trivial)
  · have hsc' : isSidecarKey o.key = false := by simpa using hsc
    simp only [hsc', Bool.false_eq_true, if_false]
    by_cases hsup : supportedExtensions.contains (fileExtensionOf o.key) = true
    · simp only [hsup, Bool.not_true, Bool.false_eq_true, if_false]
      by_cases hf : options.forceReprocess = true
      · simp only [hf, Bool.not_true, Bool.false_eq_true, if_false]
        rcases hpf : processFile env b st o (fileExtensionOf o.key) with ⟨b2, st2, r⟩
        have hshape := processFile_bucket_shape env b st o (fileExtensionOf o.key)
        rw [hpf] at hshape
        cases r with
        | ok u => exact hshape
        | error e => exact hshape
      · have hf' : options.forceReprocess = false := by simpa using hf
        simp only [hf', Bool.not_false, if_true]
        cases hh : env.headFails (metadataKeyOf o.key) with
        | some e => exact Or.inl (by trivial)
        | none =>
          dsimp only
          cases hl : alookup b.meta (metadataKeyOf o.key) with
          | some r => exact Or.inl (by trivial)
          | none =>
            dsimp only
            rcases hpf : processFile env b st o (fileExtensionOf o.key) with ⟨b2, st2, r⟩
            have hshape := processFile_bucket_shape env b st o (fileExtensionOf o.key)
            rw [hpf] at hshape
            cases r with
            | ok u => exact hshape
            | error e => exact hshape
    · have hsup' : supportedExtensions.contains (fileExtensionOf o.key) = false := by
        simpa using hsup
      simp only [hsup', Bool.not_false, if_true]
      exact Or.inl (by trivial)

theorem metadataKeyOf_inj {a c : String} (h : metadataKeyOf a = metadataKeyOf c) :
    a = c := by
  unfold metadataKeyOf at h
  have hd := congrArg String.data h
  simp only [String.data_append] at hd
  exact String.ext (List.append_cancel_right hd)

theorem putMeta_media (b : Bucket) (k : String) (md : MetadataRecord) :
    (putMeta b k md).media = b.media := rfl

theorem processObject_media (env : WorkerEnv) (options : RunOptions) (n : Nat)
    (b : Bucket) (st : RunStats) (tr : List Event) (o : R2ListedObject) :
    (processObject env options n (b, st, tr) o).1.media = b.media := by
  rcases processObject_bucket_shape env options n b st tr o with h | ⟨md, _, h⟩
  · rw [h]
  · rw [h, putMeta_media]

theorem processObject_fresh_preserved (env : WorkerEnv) (options : RunOptions)
    (n : Nat) (b : Bucket) (st : RunStats) (tr : List Event) (o : R2ListedObject)
    (K : String)
    (h : ∃ r, alookup b.meta K = some r ∧ r.generatedAt = env.now) :
    ∃ r, alookup (processObject env options n (b, st, tr) o).1.meta K = some r ∧
      r.generatedAt = env.now := by
  rcases processObject_bucket_shape env options n b st tr o with hb | ⟨md, hgen, hb⟩
  · rw [hb]
    exact h
  · rw [hb]
    by_cases hk : K = metadataKeyOf o.key
    · subst hk
      exact ⟨md, alookup_putMeta_self b _ md, hgen⟩
    · obtain ⟨r, hr, hg⟩ := h
      exact ⟨r, by rw [putMeta]; rw [alookup_aput_ne _ _ _ _ hk]; exact hr, hg⟩

theorem processObject_presence_preserved (env : WorkerEnv) (options : RunOptions)
    (n : Nat) (b : Bucket) (st : RunStats) (tr : List Event) (o : R2ListedObject)
    (K : String) (h : (alookup b.meta K).isSome = true) :
    (alookup (processObject env options n (b, st, tr) o).1.meta K).isSome = true := by
  rcases processObject_bucket_shape env options n b st tr o with hb | ⟨md, _, hb⟩
  · rw [hb]
    exact h
  · rw [hb]
    exact alookup_aput_isSome b.meta _ K md h

theorem foldl_processObject_media (env : WorkerEnv) (options : RunOptions) (n : Nat)
    (objs : List R2ListedObject) :
    ∀ (b : Bucket) (st : RunStats) (tr : List Event),
    (List.foldl (processObject env options n) (b, st, tr) objs).1.media = b.media := by
  induction objs with
  | nil => intro b st tr; rfl
  | cons o objs' ih =>
    intro b st tr
    rcases hobj : processObject env options n (b, st, tr) o with ⟨b2, st2, tr2⟩
    have hm : b2.media = b.media := by
      have := processObject_media env options n b st tr o
      rw [hobj] at this
      exact this
    rw [List.foldl_cons, hobj, ih b2 st2 tr2, hm]

theorem foldl_processObject_fresh_preserved (env : WorkerEnv) (options : RunOptions)
    (n : Nat) (objs : List R2ListedObject) :
    ∀ (b : Bucket) (st : RunStats) (tr : List Event) (K : String),
    (∃ r, alookup b.meta K = some r ∧ r.generatedAt = env.now) →
    ∃ r, alookup (List.foldl (processObject env options n) (b, st, tr) objs).1.meta K =
      some r ∧ r.generatedAt = env.now := by
  induction objs with
  | nil => exact fun b st tr K h => h
  | cons o objs' ih =>
    intro b st tr K h
    rcases hobj : processObject env options n (b, st, tr) o with ⟨b2, st2, tr2⟩
    have h2 := processObject_fresh_preserved env options n b st tr o K h
    rw [hobj] at h2
    rw [List.foldl_cons, hobj]
    exact ih b2 st2 tr2 K h2

theorem foldl_processObject_presence_preserved (env : WorkerEnv) (options : RunOptions)
    (n : Nat) (objs : List R2ListedObject) :
    ∀ (b : Bucket) (st : RunStats) (tr : List Event) (K : String),
    (alookup b.meta K).isSome = true →
    (alookup (List.foldl (processObject env options n) (b, st, tr) objs).1.meta K).isSome
      = true := by
  induction objs with
  | nil => exact fun b st tr K h => h
  | cons o objs' ih =>
    intro b st tr K h
    rcases hobj : processObject env options n (b, st, tr) o with ⟨b2, st2, tr2⟩
    have h2 := processObject_presence_preserved env options n b st tr o K h
    rw [hobj] at h2
    rw [List.foldl_cons, hobj]
    exact ih b2 st2 tr2 K h2

theorem runPages_media (env : WorkerEnv) (options : RunOptions) :
    ∀ (pages : List (Except String PageResp)) (n : Nat) (b : Bucket)
      (st : RunStats) (tr : List Event),
    (runPages env options pages n (b, st, tr)).1.media = b.media := by
  intro pages
  induction pages with
  | nil => intro n b st tr; rfl
  | cons page rest ih =>
    intro n b st tr
    cases page with
    | error msg => rfl
    | ok p =>
      rcases hacc : List.foldl (processObject env options n)
          (b, st, tr ++ [Event.listRequest n]) p.objects with ⟨b2, st2, tr2⟩
      have hm : b2.media = b.media := by
        have := foldl_processObject_media env options n p.objects b st
          (tr ++ [Event.listRequest n])
        rw [hacc] at this
        exact this
      by_cases htrunc : p.truncated = true
      · have heq : runPages env options (Except.ok p :: rest) n (b, st, tr) =
            runPages env options rest (n + 1) (b2, st2, tr2) := by
          simp [runPages, htrunc, hacc]
        rw [heq, ih (n + 1) b2 st2 tr2, hm]
      · have htrunc' : p.truncated = false := by simpa using htrunc
        have heq : runPages env options (Except.ok p :: rest) n (b, st, tr) =
            (b2, st2, tr2) := by
          simp [runPages, htrunc', hacc]
        rw [heq]
        exact hm

theorem runPages_fresh_preserved (env : WorkerEnv) (options : RunOptions) :
    ∀ (pages : List (Except String PageResp)) (n : Nat) (b : Bucket)
      (st : RunStats) (tr : List Event) (K : String),
    (∃ r, alookup b.meta K = some r ∧ r.generatedAt = env.now) →
    ∃ r, alookup (runPages env options pages n (b, st, tr)).1.meta K = some r ∧
      r.generatedAt = env.now := by
  intro pages
  induction pages with
  | nil => exact fun n b st tr K h => h
  | cons page rest ih =>
    intro n b st tr K h
    cases page with
    | error msg => exact h
    | ok p =>
      rcases hacc : List.foldl (processObject env options n)
          (b, st, tr ++ [Event.listRequest n]) p.objects with ⟨b2, st2, tr2⟩
      have h2 := foldl_processObject_fresh_preserved env options n p.objects b st
        (tr ++ [Event.listRequest n]) K h
      rw [hacc] at h2
      by_cases htrunc : p.truncated = true
      · have heq : runPages env options (Except.ok p :: rest) n (b, st, tr) =
            runPages env options rest (n + 1) (b2, st2, tr2) := by
          simp [runPages, htrunc, hacc]
        rw [heq]
        exact ih (n + 1) b2 st2 tr2 K h2
      · have htrunc' : p.truncated = false := by simpa using htrunc
        have heq : runPages env options (Except.ok p :: rest) n (b, st, tr) =
            (b2, st2, tr2) := by
          simp [runPages, htrunc', hacc]
        rw [heq]
        exact h2

theorem runPages_presence_preserved (env : WorkerEnv) (options : RunOptions) :
    ∀ (pages : List (Except String PageResp)) (n : Nat) (b : Bucket)
      (st : RunStats) (tr : List Event) (K : String),
    (alookup b.meta K).isSome = true →
    (alookup (runPages env options pages n (b, st, tr)).1.meta K).isSome = true := by
  intro pages
  induction pages with
  | nil => exact fun n b st tr K h => h
  | cons page rest ih =>
    intro n b st tr K h
    cases page with
    | error msg => exact h
    | ok p =>
      rcases hacc : List.foldl (processObject env options n)
          (b, st, tr ++ [Event.listRequest n]) p.objects with ⟨b2, st2, tr2⟩
      have h2 := foldl_processObject_presence_preserved env options n p.objects b st
        (tr ++ [Event.listRequest n]) K h
      rw [hacc] at h2
      by_cases htrunc : p.truncated = true
      · have heq : runPages env options (Except.ok p :: rest) n (b, st, tr) =
            runPages env options rest (n + 1) (b2, st2, tr2) := by
          simp [runPages, htrunc, hacc]
        rw [heq]
        exact ih (n + 1) b2 st2 tr2 K h2
      · have htrunc' : p.truncated = false := by simpa using htrunc
        have heq : runPages env options (Except.ok p :: rest) n (b, st, tr) =
            (b2, st2, tr2) := by
          simp [runPages, htrunc', hacc]
        rw [heq]
        exact h2

/-! ## Healthy-environment success lemmas -/

theorem respContentVision_isSome {e : Except String AIResp}
    (h : (respContentVision e).isSome = true) :
    ∃ vr v, e = .ok vr ∧ visionContentOf vr = some v := by
  cases e with
  | error m => simp [respContentVision] at h
  | ok vr =>
    simp only [respContentVision] at h
    cases hv : visionContentOf vr with
    | none => rw [hv] at h; simp at h
    | some v => exact ⟨vr, v, rfl, hv⟩

theorem respContentBasic_isSome {e : Except String AIResp}
    (h : (respContentBasic e).isSome = true) :
    ∃ sr s, e = .ok sr ∧ basicContentOf sr = some s := by
  cases e with
  | error m => simp [respContentBasic] at h
  | ok sr =>
    simp only [respContentBasic] at h
    cases hs : basicContentOf sr with
    | none => rw [hs] at h; simp at h
    | some s => exact ⟨sr, s, rfl, hs⟩

theorem exceptOk_shape {ε α : Type} {e : Except ε α} (h : exceptOk e = true) :
    ∃ p, e = .ok p := by
  cases e with
  | error m => simp [exceptOk] at h
  | ok p => exact ⟨p, rfl⟩

theorem processable_supported {ext : String} (h : processableExt ext = true) :
    supportedExtensions.contains ext = true := by
  unfold processableExt at h
  have h2 : ext ∈ imageExtensions ∨ ext = ".pdf" := by simpa using h
  rcases h2 with hm | rfl
  · simp only [imageExtensions, List.mem_cons, List.not_mem_nil, or_false] at hm
    rcases hm with rfl | rfl | rfl <;> decide
  · decide

theorem supported_not_processable {ext : String}
    (h1 : supportedExtensions.contains ext = true)
    (h2 : processableExt ext = false) : ext = ".mp4" := by
  have hm : ext ∈ supportedExtensions := by simpa using h1
  simp only [supportedExtensions, List.mem_cons, List.not_mem_nil, or_false] at hm
  rcases hm with rfl | rfl | rfl | rfl | rfl <;> first | rfl | simp [processableExt, imageExtensions] at h2

theorem pdfMainPath_healthy (env : WorkerEnv) (b : Bucket) (key : String)
    (media : MediaBlob)
    (hv : (respContentVision (env.vision key)).isSome = true)
    (hs : (respContentBasic (env.summarize key)).isSome = true)
    (hput : env.putFails (metadataKeyOf key) = none) :
    ∃ md, md.generatedAt = env.now ∧
      pdfMainPath env b key media = .ok (putMeta b (metadataKeyOf key) md) := by
  obtain ⟨vr, v, hvr, hvc⟩ := respContentVision_isSome hv
  obtain ⟨sr, s, hsr, hbc⟩ := respContentBasic_isSome hs
  have heq : pdfMainPath env b key media = .ok (putMeta b (metadataKeyOf key)
      (validateAndCleanOutput
        { filename := key, type := "pdf",
          summary := some (cleanSummary s), tags := extractTags s,
          size := media.size, lastModified := media.uploaded,
          generatedAt := env.now })) := by
    unfold pdfMainPath
    rw [hvr]
    dsimp only
    rw [hvc]
    dsimp only
    rw [hsr]
    dsimp only
    rw [hbc]
    dsimp only
    rw [hput]
  exact ⟨_, rfl, heq⟩

theorem processImage_healthy (env : WorkerEnv) (b : Bucket) (o : R2ListedObject)
    (ha : exceptOk (env.analyzeImage o.key) = true)
    (hput : env.putFails (metadataKeyOf o.key) = none) :
    ∃ md, md.generatedAt = env.now ∧
      processImage env b o = .ok (putMeta b (metadataKeyOf o.key) md) := by
  obtain ⟨p, hp⟩ := exceptOk_shape ha
  obtain ⟨caption, tags⟩ := p
  have heq : processImage env b o = .ok (putMeta b (metadataKeyOf o.key)
      { filename := o.key, type := "image", caption := some caption,
          tags := jsSetDedup (tags.map jsToLower), size := o.size,
          lastModified := o.uploaded, generatedAt := env.now }) := by
    unfold processImage
    rw [hp]
    dsimp only
    rw [hput]
  exact ⟨_, rfl, heq⟩

theorem processPdf_healthy (env : WorkerEnv) (b : Bucket) (key : String)
    (hm : (getMedia b key).isSome = true)
    (hv : (respContentVision (env.vision key)).isSome = true)
    (hs : (respContentBasic (env.summarize key)).isSome = true)
    (hput : env.putFails (metadataKeyOf key) = none) :
    ∃ md, md.generatedAt = env.now ∧
      processPdf env b key = putMeta b (metadataKeyOf key) md := by
  obtain ⟨media, hmedia⟩ := Option.isSome_iff_exists.mp hm
  obtain ⟨md, hgen, hmain⟩ := pdfMainPath_healthy env b key media hv hs hput
  refine ⟨md, hgen, ?_⟩
  unfold processPdf
  rw [hmedia]
  dsimp only
  rw [hmain]

theorem processFile_healthy_writes (env : WorkerEnv) (b : Bucket) (st : RunStats)
    (o : R2ListedObject)
    (hproc : processableExt (fileExtensionOf o.key) = true)
    (hput : env.putFails (metadataKeyOf o.key) = none)
    (hv : (respContentVision (env.vision o.key)).isSome = true)
    (hs : (respContentBasic (env.summarize o.key)).isSome = true)
    (ha : exceptOk (env.analyzeImage o.key) = true)
    (hmedia : fileExtensionOf o.key = ".pdf" → (getMedia b o.key).isSome = true) :
    ∃ md, md.generatedAt = env.now ∧
      (processFile env b st o (fileExtensionOf o.key)).1 =
        putMeta b (metadataKeyOf o.key) md := by
  unfold processableExt at hproc
  have hproc2 : fileExtensionOf o.key ∈ imageExtensions ∨
      fileExtensionOf o.key = ".pdf" := by simpa using hproc
  rcases hproc2 with himg | hext
  · obtain ⟨md, hgen, him⟩ := processImage_healthy env b o ha hput
    refine ⟨md, hgen, ?_⟩
    unfold processFile
    have himg2 : imageExtensions.contains (fileExtensionOf o.key) = true := by
      simpa using himg
    simp only [himg2, if_true, him]
  · 
    obtain ⟨md, hgen, hpp⟩ := processPdf_healthy env b o.key (hmedia hext) hv hs hput
    refine ⟨md, hgen, ?_⟩
    rw [hext]
    unfold processFile
    have h1 : imageExtensions.contains ".pdf" = false := by decide
    have h2 : ((".pdf" : String) == ".mp4") = false := by decide
    have h3 : ((".pdf" : String) == ".pdf") = true := by decide
    simp only [h1, h2, h3, Bool.false_eq_true, if_false, if_true]
    exact hpp

/-! ## C5: forced runs regenerate every processable candidate, no probes -/

theorem mem_keysOfPages_head {p : PageResp} {rest : List (Except String PageResp)}
    {o : R2ListedObject} (ho : o ∈ p.objects) :
    o.key ∈ keysOfPages (.ok p :: rest) := by
  simp only [keysOfPages, List.map_cons, List.flatten_cons, List.mem_append]
  exact Or.inl (List.mem_map.mpr ⟨o, ho, rfl⟩)

theorem mem_keysOfPages_rest {page : Except String PageResp}
    {rest : List (Except String PageResp)} {k : String}
    (h : k ∈ keysOfPages rest) : k ∈ keysOfPages (page :: rest) := by
  simp only [keysOfPages, List.map_cons, List.flatten_cons, List.mem_append]
  exact Or.inr h

theorem processObject_force_fresh (env : WorkerEnv) (options : RunOptions) (n : Nat)
    (b : Bucket) (st : RunStats) (tr : List Event) (o : R2ListedObject)
    (hf : options.forceReprocess = true)
    (hsc : isSidecarKey o.key = false)
    (hproc : processableExt (fileExtensionOf o.key) = true)
    (hput : env.putFails (metadataKeyOf o.key) = none)
    (hv : (respContentVision (env.vision o.key)).isSome = true)
    (hs : (respContentBasic (env.summarize o.key)).isSome = true)
    (ha : exceptOk (env.analyzeImage o.key) = true)
    (hmedia : fileExtensionOf o.key = ".pdf" → (getMedia b o.key).isSome = true) :
    ∃ r, alookup (processObject env options n (b, st, tr) o).1.meta
      (metadataKeyOf o.key) = some r ∧ r.generatedAt = env.now := by
  obtain ⟨md, hgen, hw⟩ :=
    processFile_healthy_writes env b st o hproc hput hv hs ha hmedia
  have hmem : fileExtensionOf o.key ∈ supportedExtensions := by
    simpa using processable_supported hproc
  rcases hpf : processFile env b st o (fileExtensionOf o.key) with ⟨b2, st2, r⟩
  have hw2 : b2 = putMeta b (metadataKeyOf o.key) md := by
    rw [hpf] at hw
    exact hw
  cases r with
  | ok u =>
    have hres : (processObject env options n (b, st, tr) o).1 = b2 := by
      simp [processObject, hsc, hmem, hf, hpf]
    rw [hres, hw2]
    exact ⟨md, alookup_putMeta_self b _ md, hgen⟩
  | error e =>
    have hres : (processObject env options n (b, st, tr) o).1 = b2 := by
      simp [processObject, hsc, hmem, hf, hpf]
    rw [hres, hw2]
    exact ⟨md, alookup_putMeta_self b _ md, hgen⟩

theorem foldl_force_fresh (env : WorkerEnv) (options : RunOptions) (n : Nat)
    (objs : List R2ListedObject) (hf : options.forceReprocess = true) :
    ∀ (b : Bucket) (st : RunStats) (tr : List Event),
    (∀ o ∈ objs,
      env.putFails (metadataKeyOf o.key) = none ∧
      (respContentVision (env.vision o.key)).isSome = true ∧
      (respContentBasic (env.summarize o.key)).isSome = true ∧
      exceptOk (env.analyzeImage o.key) = true) →
    (∀ o ∈ objs, fileExtensionOf o.key = ".pdf" → (getMedia b o.key).isSome = true) →
    ∀ o ∈ objs, isSidecarKey o.key = false →
    processableExt (fileExtensionOf o.key) = true →
    ∃ r, alookup (List.foldl (processObject env options n) (b, st, tr) objs).1.meta
      (metadataKeyOf o.key) = some r ∧ r.generatedAt = env.now := by
  induction objs with
  | nil =>
    intro b st tr _ _ o ho
    simp at ho
  | cons q objs' ih =>
    intro b st tr hh hm o ho hsc hproc
    rcases hobj : processObject env options n (b, st, tr) q with ⟨b2, st2, tr2⟩
    have hbmedia : b2.media = b.media := by
      have h0 := processObject_media env options n b st tr q
      rw [hobj] at h0
      exact h0
    have hmedia2 : ∀ o' ∈ objs',
        fileExtensionOf o'.key = ".pdf" → (getMedia b2 o'.key).isSome = true := by
      intro o' ho' hext
      unfold getMedia
      rw [hbmedia]
      exact hm o' (List.mem_cons_of_mem _ ho') hext
    rcases List.mem_cons.mp ho with rfl | ho'
    · obtain ⟨hput, hv, hs, ha⟩ := hh o (List.mem_cons_self _ _)
      have hest := processObject_force_fresh env options n b st tr o hf hsc hproc
        hput hv hs ha (hm o (List.mem_cons_self _ _))
      rw [hobj] at hest
      rw [List.foldl_cons, hobj]
      exact foldl_processObject_fresh_preserved env options n objs' b2 st2 tr2 _ hest
    · rw [List.foldl_cons, hobj]
      exact ih b2 st2 tr2 (fun o' ho'' => hh o' (List.mem_cons_of_mem _ ho''))
        hmedia2 o ho' hsc hproc

theorem runPages_force_fresh (env : WorkerEnv) (options : RunOptions)
    (hf : options.forceReprocess = true) :
    ∀ (pages : List (Except String PageResp)) (n : Nat) (b : Bucket)
      (st : RunStats) (tr : List Event),
    (∀ k ∈ keysOfPages pages,
      env.putFails (metadataKeyOf k) = none ∧
      (respContentVision (env.vision k)).isSome = true ∧
      (respContentBasic (env.summarize k)).isSome = true ∧
      exceptOk (env.analyzeImage k) = true) →
    (∀ k ∈ keysOfPages pages, fileExtensionOf k = ".pdf" →
      (getMedia b k).isSome = true) →
    ∀ i objs, (i, objs) ∈ consumedPages n pages → ∀ o ∈ objs,
    isSidecarKey o.key = false → processableExt (fileExtensionOf o.key) = true →
    ∃ r, alookup (runPages env options pages n (b, st, tr)).1.meta
      (metadataKeyOf o.key) = some r ∧ r.generatedAt = env.now := by
  intro pages
  induction pages with
  | nil =>
    intro n b st tr _ _ i objs hio
    simp [consumedPages] at hio
  | cons page rest ih =>
    intro n b st tr hh hm i objs hio o ho hsc hproc
    cases page with
    | error msg => simp [consumedPages] at hio
    | ok p =>
      rcases hacc : List.foldl (processObject env options n)
          (b, st, tr ++ [Event.listRequest n]) p.objects with ⟨b2, st2, tr2⟩
      have hbmedia : b2.media = b.media := by
        have h0 := foldl_processObject_media env options n p.objects b st
          (tr ++ [Event.listRequest n])
        rw [hacc] at h0
        exact h0
      simp only [consumedPages, List.mem_cons] at hio
      rcases hio with heq | hio'
      · obtain ⟨hi, hobjs⟩ := Prod.mk.injEq .. ▸ heq
        subst hi
        have hest := foldl_force_fresh env options i p.objects hf b st
          (tr ++ [Event.listRequest i])
          (fun o' ho' => hh o'.key (mem_keysOfPages_head ho'))
          (fun o' ho' => hm o'.key (mem_keysOfPages_head ho'))
          o (hobjs ▸ ho) hsc hproc
        rw [hacc] at hest
        by_cases htrunc : p.truncated = true
        · have heq2 : runPages env options (Except.ok p :: rest) i (b, st, tr) =
              runPages env options rest (i + 1) (b2, st2, tr2) := by
            simp [runPages, htrunc, hacc]
          rw [heq2]
          exact runPages_fresh_preserved env options rest (i + 1) b2 st2 tr2 _ hest
        · have htrunc' : p.truncated = false := by simpa using htrunc
          have heq2 : runPages env options (Except.ok p :: rest) i (b, st, tr) =
              (b2, st2, tr2) := by
            simp [runPages, htrunc', hacc]
          rw [heq2]
          exact hest
      · by_cases htrunc : p.truncated = true
        · rw [if_pos htrunc] at hio'
          have heq2 : runPages env options (Except.ok p :: rest) n (b, st, tr) =
              runPages env options rest (n + 1) (b2, st2, tr2) := by
            simp [runPages, htrunc, hacc]
          rw [heq2]
          have hm2 : ∀ k ∈ keysOfPages rest, fileExtensionOf k = ".pdf" →
              (getMedia b2 k).isSome = true := by
            intro k hk hext
            unfold getMedia
            rw [hbmedia]
            exact hm k (mem_keysOfPages_rest hk) hext
          exact ih (n + 1) b2 st2 tr2
            (fun k hk => hh k (mem_keysOfPages_rest hk)) hm2 i objs hio' o ho hsc hproc
        · rw [if_neg htrunc] at hio'
          simp at hio'

/-- C5: under `forceReprocess = true` (with the collaborators healthy and
the listed PDF objects present in the store), every non-sidecar image or
PDF object the listing enumerates gets its metadata record (re)written
with the run's fresh `generatedAt`, regardless of any existing sidecar;
and the `head` existence probe is never invoked during the run. -/
theorem force_reprocess_regenerates (env : WorkerEnv) (options : RunOptions)
    (b : Bucket) (hf : options.forceReprocess = true)
    (hh : HealthyEnv env) (hm : MediaPresent env b) :
    (∀ i objs, (i, objs) ∈ consumedPages 0 env.pages → ∀ o ∈ objs,
      isSidecarKey o.key = false → processableExt (fileExtensionOf o.key) = true →
      ∃ r, alookup (processAllMedia env options b).1.meta (metadataKeyOf o.key) =
        some r ∧ r.generatedAt = env.now) ∧
    (∀ i k, Event.headProbe i k ∉ (processAllMedia env options b).2.2) := by
  constructor
  · intro i objs hio o ho h1 h2
    exact runPages_force_fresh env options hf env.pages 0 b ⟨0, 0, 0⟩ []
      (fun k hk => ⟨(hh k hk).2.1, (hh k hk).2.2.1, (hh k hk).2.2.2.1,
        (hh k hk).2.2.2.2⟩)
      (fun k hk => hm k hk) i objs hio o ho h1 h2
  · intro i k
    obtain ⟨Δ, hΔ, _, h3, _⟩ := runPages_trace env options env.pages 0 b ⟨0, 0, 0⟩ []
    have heq : (processAllMedia env options b).2.2 = Δ := by
      rw [show (processAllMedia env options b).2.2 =
        (runPages env options env.pages 0 (b, ⟨0, 0, 0⟩, [])).2.2 from rfl, hΔ]
      simp
    rw [heq]
    exact h3 hf i k

/-- Witness for C5: the two-page environment, where `a.pdf` already has a
stale sidecar, regenerates it with the fresh timestamp and probes
nothing. -/
theorem force_reprocess_regenerates_witness :
    (⟨true⟩ : RunOptions).forceReprocess = true ∧
    HealthyEnv twoPageEnv ∧
    MediaPresent twoPageEnv twoPdfBucket ∧
    (∃ r, alookup (processAllMedia twoPageEnv ⟨true⟩ twoPdfBucket).1.meta
        (metadataKeyOf "a.pdf") = some r ∧ r.generatedAt = twoPageEnv.now) ∧
    (∀ i k, Event.headProbe i k ∉
      (processAllMedia twoPageEnv ⟨true⟩ twoPdfBucket).2.2) := by
  have h := force_reprocess_regenerates twoPageEnv ⟨true⟩ twoPdfBucket rfl
    (by decide) (by decide)
  exact ⟨rfl, by decide, by decide,
    h.1 0 [⟨"a.pdf", 1, 1⟩] (by decide) ⟨"a.pdf", 1, 1⟩ (by decide) (by decide)
      (by decide),
    h.2⟩

/-! ## C6: a second non-forced run only skips -/

theorem processObject_nonforce_presence (env : WorkerEnv) (options : RunOptions)
    (n : Nat) (b : Bucket) (st : RunStats) (tr : List Event) (o : R2ListedObject)
    (hf : options.forceReprocess = false)
    (hsc : isSidecarKey o.key = false)
    (hproc : processableExt (fileExtensionOf o.key) = true)
    (hhead : env.headFails (metadataKeyOf o.key) = none)
    (hput : env.putFails (metadataKeyOf o.key) = none)
    (hv : (respContentVision (env.vision o.key)).isSome = true)
    (hs : (respContentBasic (env.summarize o.key)).isSome = true)
    (ha : exceptOk (env.analyzeImage o.key) = true)
    (hmedia : fileExtensionOf o.key = ".pdf" → (getMedia b o.key).isSome = true) :
    (alookup (processObject env options n (b, st, tr) o).1.meta
      (metadataKeyOf o.key)).isSome = true := by
  have hmem : fileExtensionOf o.key ∈ supportedExtensions := by
    simpa using processable_supported hproc
  cases hl : alookup b.meta (metadataKeyOf o.key) with
  | some r =>
    have hres : (processObject env options n (b, st, tr) o).1 = b := by
      simp [processObject, hsc, hmem, hf, hhead, hl]
    rw [hres, hl]
    rfl
  | none =>
    obtain ⟨md, hgen, hw⟩ :=
      processFile_healthy_writes env b st o hproc hput hv hs ha hmedia
    rcases hpf : processFile env b st o (fileExtensionOf o.key) with ⟨b2, st2, r⟩
    have hw2 : b2 = putMeta b (metadataKeyOf o.key) md := by
      rw [hpf] at hw
      exact hw
    cases r with
    | ok u =>
      have hres : (processObject env options n (b, st, tr) o).1 = b2 := by
        simp [processObject, hsc, hmem, hf, hhead, hl, hpf]
      rw [hres, hw2, alookup_putMeta_self]
      rfl
    | error e =>
      have hres : (processObject env options n (b, st, tr) o).1 = b2 := by
        simp [processObject, hsc, hmem, hf, hhead, hl, hpf]
      rw [hres, hw2, alookup_putMeta_self]
      rfl

theorem foldl_nonforce_presence (env : WorkerEnv) (options : RunOptions) (n : Nat)
    (objs : List R2ListedObject) (hf : options.forceReprocess = false) :
    ∀ (b : Bucket) (st : RunStats) (tr : List Event),
    (∀ o ∈ objs,
      env.headFails (metadataKeyOf o.key) = none ∧
      env.putFails (metadataKeyOf o.key) = none ∧
      (respContentVision (env.vision o.key)).isSome = true ∧
      (respContentBasic (env.summarize o.key)).isSome = true ∧
      exceptOk (env.analyzeImage o.key) = true) →
    (∀ o ∈ objs, fileExtensionOf o.key = ".pdf" → (getMedia b o.key).isSome = true) →
    ∀ o ∈ objs, isSidecarKey o.key = false →
    processableExt (fileExtensionOf o.key) = true →
    (alookup (List.foldl (processObject env options n) (b, st, tr) objs).1.meta
      (metadataKeyOf o.key)).isSome = true := by
  induction objs with
  | nil =>
    intro b st tr _ _ o ho
    simp at ho
  | cons q objs' ih =>
    intro b st tr hh hm o ho hsc hproc
    rcases hobj : processObject env options n (b, st, tr) q with ⟨b2, st2, tr2⟩
    have hbmedia : b2.media = b.media := by
      have h0 := processObject_media env options n b st tr q
      rw [hobj] at h0
      exact h0
    have hmedia2 : ∀ o' ∈ objs',
        fileExtensionOf o'.key = ".pdf" → (getMedia b2 o'.key).isSome = true := by
      intro o' ho' hext
      unfold getMedia
      rw [hbmedia]
      exact hm o' (List.mem_cons_of_mem _ ho') hext
    rcases List.mem_cons.mp ho with rfl | ho'
    · obtain ⟨hhead, hput, hv, hs, ha⟩ := hh o (List.mem_cons_self _ _)
      have hest := processObject_nonforce_presence env options n b st tr o hf hsc
        hproc hhead hput hv hs ha (hm o (List.mem_cons_self _ _))
      rw [hobj] at hest
      rw [List.foldl_cons, hobj]
      exact foldl_processObject_presence_preserved env options n objs' b2 st2 tr2 _ hest
    · rw [List.foldl_cons, hobj]
      exact ih b2 st2 tr2 (fun o' ho'' => hh o' (List.mem_cons_of_mem _ ho''))
        hmedia2 o ho' hsc hproc

theorem mem_consumedObjects_head {p : PageResp} {rest : List (Except String PageResp)}
    {n : Nat} {o : R2ListedObject} (ho : o ∈ p.objects) :
    o ∈ consumedObjects n (.ok p :: rest) := by
  simp only [consumedObjects, consumedPages, List.map_cons, List.flatten_cons,
    List.mem_append]
  exact Or.inl ho

theorem mem_consumedObjects_rest {p : PageResp} {rest : List (Except String PageResp)}
    {n : Nat} {o : R2ListedObject} (htrunc : p.truncated = true)
    (ho : o ∈ consumedObjects (n + 1) rest) :
    o ∈ consumedObjects n (.ok p :: rest) := by
  simp only [consumedObjects, consumedPages, htrunc, if_true, List.map_cons,
    List.flatten_cons, List.mem_append]
  exact Or.inr ho

theorem runPages_nonforce_presence (env : WorkerEnv) (options : RunOptions)
    (hf : options.forceReprocess = false) :
    ∀ (pages : List (Except String PageResp)) (n : Nat) (b : Bucket)
      (st : RunStats) (tr : List Event),
    (∀ k ∈ keysOfPages pages,
      env.headFails (metadataKeyOf k) = none ∧
      env.putFails (metadataKeyOf k) = none ∧
      (respContentVision (env.vision k)).isSome = true ∧
      (respContentBasic (env.summarize k)).isSome = true ∧
      exceptOk (env.analyzeImage k) = true) →
    (∀ k ∈ keysOfPages pages, fileExtensionOf k = ".pdf" →
      (getMedia b k).isSome = true) →
    ∀ o ∈ consumedObjects n pages, isSidecarKey o.key = false →
    processableExt (fileExtensionOf o.key) = true →
    (alookup (runPages env options pages n (b, st, tr)).1.meta
      (metadataKeyOf o.key)).isSome = true := by
  intro pages
  induction pages with
  | nil =>
    intro n b st tr _ _ o ho
    simp [consumedObjects, consumedPages] at ho
  | cons page rest ih =>
    intro n b st tr hh hm o ho hsc hproc
    cases page with
    | error msg => simp [consumedObjects, consumedPages] at ho
    | ok p =>
      rcases hacc : List.foldl (processObject env options n)
          (b, st, tr ++ [Event.listRequest n]) p.objects with ⟨b2, st2, tr2⟩
      have hbmedia : b2.media = b.media := by
        have h0 := foldl_processObject_media env options n p.objects b st
          (tr ++ [Event.listRequest n])
        rw [hacc] at h0
        exact h0
      have hin : o ∈ p.objects ∨
          (p.truncated = true ∧ o ∈ consumedObjects (n + 1) rest) := by
        by_cases htrunc : p.truncated = true
        · simp only [consumedObjects, consumedPages, htrunc, if_true,
            List.map_cons, List.flatten_cons, List.mem_append] at ho
          rcases ho with h | h
          · exact Or.inl h
          · exact Or.inr ⟨htrunc, h⟩
        · have htrunc' : p.truncated = false := by simpa using htrunc
          simp only [consumedObjects, consumedPages, htrunc', List.map_cons,
            List.flatten_cons, List.mem_append, Bool.false_eq_true, if_false] at ho
          simp only [consumedObjects, consumedPages, List.map_nil,
            List.flatten_nil, List.mem_append] at ho
          rcases ho with h | h
          · exact Or.inl h
          · simp at h
      rcases hin with hhead_mem | ⟨htrunc, hrest⟩
      · have hest := foldl_nonforce_presence env options n p.objects hf b st
          (tr ++ [Event.listRequest n])
          (fun o' ho' => hh o'.key (mem_keysOfPages_head ho'))
          (fun o' ho' => hm o'.key (mem_keysOfPages_head ho'))
          o hhead_mem hsc hproc
        rw [hacc] at hest
        by_cases htrunc : p.truncated = true
        · have heq2 : runPages env options (Except.ok p :: rest) n (b, st, tr) =
              runPages env options rest (n + 1) (b2, st2, tr2) := by
            simp [runPages, htrunc, hacc]
          rw [heq2]
          exact runPages_presence_preserved env options rest (n + 1) b2 st2 tr2 _ hest
        · have htrunc' : p.truncated = false := by simpa using htrunc
          have heq2 : runPages env options (Except.ok p :: rest) n (b, st, tr) =
              (b2, st2, tr2) := by
            simp [runPages, htrunc', hacc]
          rw [heq2]
          exact hest
      · have heq2 : runPages env options (Except.ok p :: rest) n (b, st, tr) =
            runPages env options rest (n + 1) (b2, st2, tr2) := by
          simp [runPages, htrunc, hacc]
        rw [heq2]
        have hm2 : ∀ k ∈ keysOfPages rest, fileExtensionOf k = ".pdf" →
            (getMedia b2 k).isSome = true := by
          intro k hk hext
          unfold getMedia
          rw [hbmedia]
          exact hm k (mem_keysOfPages_rest hk) hext
        exact ih (n + 1) b2 st2 tr2
          (fun k hk => hh k (mem_keysOfPages_rest hk)) hm2 o hrest hsc hproc

theorem processObject_allskip (env : WorkerEnv) (options : RunOptions) (n : Nat)
    (b : Bucket) (st : RunStats) (tr : List Event) (o : R2ListedObject)
    (hf : options.forceReprocess = false)
    (hhead : env.headFails (metadataKeyOf o.key) = none)
    (hpres : isSidecarKey o.key = false →
      processableExt (fileExtensionOf o.key) = true →
      (alookup b.meta (metadataKeyOf o.key)).isSome = true) :
    (isSidecarKey o.key = true →
      processObject env options n (b, st, tr) o = (b, st, tr)) ∧
    (isSidecarKey o.key = false →
      (processObject env options n (b, st, tr) o).1 = b ∧
      (processObject env options n (b, st, tr) o).2.1 =
        { st with skipped := st.skipped + 1 }) := by
  constructor
  · intro hsc
    simp [processObject, hsc]
  · intro hsc
    by_cases hsup : supportedExtensions.contains (fileExtensionOf o.key) = true
    · have hmem : fileExtensionOf o.key ∈ supportedExtensions := by simpa using hsup
      by_cases hproc : processableExt (fileExtensionOf o.key) = true
      · obtain ⟨r, hl⟩ := Option.isSome_iff_exists.mp (hpres hsc hproc)
        constructor <;> simp [processObject, hsc, hmem, hf, hhead, hl]
      · have hproc' : processableExt (fileExtensionOf o.key) = false := by
          simpa using hproc
        have hext := supported_not_processable hsup hproc'
        cases hl : alookup b.meta (metadataKeyOf o.key) with
        | some r => constructor <;> simp [processObject, hsc, hmem, hf, hhead, hl]
        | none =>
          have e1 : imageExtensions.contains ".mp4" = false := by decide
          have e2 : ((".mp4" : String) == ".mp4") = true := by decide
          have hpf : processFile env b st o (fileExtensionOf o.key) =
              (b, { st with skipped := st.skipped + 1 }, .ok ()) := by
            rw [hext]
            simp only [processFile, e1, e2, Bool.false_eq_true, if_false, if_true]
          constructor <;> simp [processObject, hsc, hmem, hf, hhead, hl, hpf]
    · have hsup' : supportedExtensions.contains (fileExtensionOf o.key) = false := by
        simpa using hsup
      have hmem' : ¬fileExtensionOf o.key ∈ supportedExtensions := by
        simpa using hsup
      constructor <;> simp [processObject, hsc, hmem']

theorem foldl_allskip (env : WorkerEnv) (options : RunOptions) (n : Nat)
    (objs : List R2ListedObject) (hf : options.forceReprocess = false) :
    ∀ (b : Bucket) (st : RunStats) (tr : List Event),
    (∀ o ∈ objs, env.headFails (metadataKeyOf o.key) = none) →
    (∀ o ∈ objs, isSidecarKey o.key = false →
      processableExt (fileExtensionOf o.key) = true →
      (alookup b.meta (metadataKeyOf o.key)).isSome = true) →
    (List.foldl (processObject env options n) (b, st, tr) objs).1 = b ∧
    (List.foldl (processObject env options n) (b, st, tr) objs).2.1 =
      { st with skipped := st.skipped + objs.countP (fun o => !isSidecarKey o.key) } := by
  induction objs with
  | nil =>
    intro b st tr _ _
    exact ⟨rfl, by simp⟩
  | cons q objs' ih =>
    intro b st tr hhead hpres
    have hps := processObject_allskip env options n b st tr q hf
      (hhead q (List.mem_cons_self _ _)) (hpres q (List.mem_cons_self _ _))
    by_cases hsc : isSidecarKey q.key = true
    · have hq := hps.1 hsc
      rw [List.foldl_cons, hq]
      obtain ⟨ih1, ih2⟩ := ih b st tr
        (fun o ho => hhead o (List.mem_cons_of_mem _ ho))
        (fun o ho => hpres o (List.mem_cons_of_mem _ ho))
      refine ⟨ih1, ?_⟩
      rw [ih2]
      have hc : (q :: objs').countP (fun o => !isSidecarKey o.key) =
          objs'.countP (fun o => !isSidecarKey o.key) := by
        simp [List.countP_cons, hsc]
      rw [hc]
    · have hsc' : isSidecarKey q.key = false := by simpa using hsc
      obtain ⟨hb2, hst2⟩ := hps.2 hsc'
      rcases hobj : processObject env options n (b, st, tr) q with ⟨b2, st2, tr2⟩
      have hb2' : b2 = b := by rw [hobj] at hb2; exact hb2
      have hst2' : st2 = { st with skipped := st.skipped + 1 } := by
        rw [hobj] at hst2
        exact hst2
      obtain ⟨ih1, ih2⟩ := ih b2 st2 tr2
        (fun o ho => hhead o (List.mem_cons_of_mem _ ho))
        (fun o ho h1 h2 => by
          rw [hb2']
          exact hpres o (List.mem_cons_of_mem _ ho) h1 h2)
      rw [List.foldl_cons, hobj]
      refine ⟨by rw [ih1, hb2'], ?_⟩
      rw [ih2, hst2']
      have hc : (q :: objs').countP (fun o => !isSidecarKey o.key) =
          objs'.countP (fun o => !isSidecarKey o.key) + 1 := by
        simp [List.countP_cons, hsc']
      rw [hc]
      simp only [RunStats.mk.injEq]
      refine ⟨trivial, by omega, trivial⟩

theorem runPages_allskip (env : WorkerEnv) (options : RunOptions)
    (hf : options.forceReprocess = false) :
    ∀ (pages : List (Except String PageResp)) (n : Nat) (b : Bucket)
      (st : RunStats) (tr : List Event),
    (∀ page ∈ pages, isOkPage page = true) →
    (∀ k ∈ keysOfPages pages, env.headFails (metadataKeyOf k) = none) →
    (∀ o ∈ consumedObjects n pages, isSidecarKey o.key = false →
      processableExt (fileExtensionOf o.key) = true →
      (alookup b.meta (metadataKeyOf o.key)).isSome = true) →
    (runPages env options pages n (b, st, tr)).1 = b ∧
    (runPages env options pages n (b, st, tr)).2.1 =
      { st with skipped := st.skipped +
        (consumedObjects n pages).countP (fun o => !isSidecarKey o.key) } := by
  intro pages
  induction pages with
  | nil =>
    intro n b st tr _ _ _
    exact ⟨rfl, by simp [runPages, consumedObjects, consumedPages]⟩
  | cons page rest ih =>
    intro n b st tr hok hhead hpres
    cases page with
    | error msg =>
      have h0 := hok (.error msg) (List.mem_cons_self _ _)
      simp [isOkPage] at h0
    | ok p =>
      rcases hacc : List.foldl (processObject env options n)
          (b, st, tr ++ [Event.listRequest n]) p.objects with ⟨b2, st2, tr2⟩
      obtain ⟨hf1, hf2⟩ := foldl_allskip env options n p.objects hf b st
        (tr ++ [Event.listRequest n])
        (fun o ho => hhead o.key (mem_keysOfPages_head ho))
        (fun o ho h1 h2 => hpres o (mem_consumedObjects_head ho) h1 h2)
      have hb2 : b2 = b := by rw [hacc] at hf1; exact hf1
      have hst2 : st2 = { st with skipped := st.skipped + p.objects.countP (fun o => !isSidecarKey o.key) } := by
        rw [hacc] at hf2
        exact hf2
      by_cases htrunc : p.truncated = true
      · have heq : runPages env options (.ok p :: rest) n (b, st, tr) =
            runPages env options rest (n + 1) (b2, st2, tr2) := by
          simp [runPages, htrunc, hacc]
        obtain ⟨ih1, ih2⟩ := ih (n + 1) b2 st2 tr2
          (fun q hq => hok q (List.mem_cons_of_mem _ hq))
          (fun k hk => hhead k (mem_keysOfPages_rest hk))
          (fun o ho h1 h2 => by
            rw [hb2]
            exact hpres o (mem_consumedObjects_rest htrunc ho) h1 h2)
        rw [heq]
        refine ⟨by rw [ih1, hb2], ?_⟩
        rw [ih2, hst2]
        have hco : consumedObjects n (.ok p :: rest) =
            p.objects ++ consumedObjects (n + 1) rest := by
          simp [consumedObjects, consumedPages, htrunc]
        rw [hco, List.countP_append]
        simp only [RunStats.mk.injEq]
        refine ⟨trivial, by omega, trivial⟩
      · have htrunc' : p.truncated = false := by simpa using htrunc
        have heq : runPages env options (.ok p :: rest) n (b, st, tr) =
            (b2, st2, tr2) := by
          simp [runPages, htrunc', hacc]
        rw [heq]
        have hco : consumedObjects n (.ok p :: rest) = p.objects := by
          simp [consumedObjects, consumedPages, htrunc']
        rw [hco]
        exact ⟨hb2, hst2⟩

/-- C6: after one complete, healthy non-forced run, a second non-forced
run over the same listing processes nothing: its stats are
`processed = 0`, `skipped = N`, `errors = 0`, where `N` is the number of
non-sidecar objects the listing enumerates. -/
theorem second_run_all_skipped (env : WorkerEnv) (b : Bucket)
    (hok : ∀ page ∈ env.pages, isOkPage page = true)
    (hh : HealthyEnv env) (hm : MediaPresent env b) :
    (processAllMedia env ⟨false⟩ (processAllMedia env ⟨false⟩ b).1).2.1 =
      ⟨0, (enumeratedObjects env.pages).countP (fun o => !isSidecarKey o.key), 0⟩ := by
  have hpres1 : ∀ o ∈ consumedObjects 0 env.pages, isSidecarKey o.key = false →
      processableExt (fileExtensionOf o.key) = true →
      (alookup (processAllMedia env ⟨false⟩ b).1.meta
        (metadataKeyOf o.key)).isSome = true := by
    intro o ho h1 h2
    exact runPages_nonforce_presence env ⟨false⟩ rfl env.pages 0 b ⟨0, 0, 0⟩ []
      (fun k hk => hh k hk) (fun k hk => hm k hk) o ho h1 h2
  obtain ⟨_, h2⟩ := runPages_allskip env ⟨false⟩ rfl env.pages 0
    (processAllMedia env ⟨false⟩ b).1 ⟨0, 0, 0⟩ [] hok
    (fun k hk => (hh k hk).1) hpres1
  rw [show (processAllMedia env ⟨false⟩ (processAllMedia env ⟨false⟩ b).1).2.1 =
    (runPages env ⟨false⟩ env.pages 0
      ((processAllMedia env ⟨false⟩ b).1, ⟨0, 0, 0⟩, [])).2.1 from rfl]
  rw [h2]
  simp [enumeratedObjects, consumedObjects]

/-- Witness for C6 at the concrete two-page store: the second run skips
both PDF objects. -/
theorem second_run_all_skipped_witness :
    (∀ page ∈ twoPageEnv.pages, isOkPage page = true) ∧
    HealthyEnv twoPageEnv ∧
    MediaPresent twoPageEnv twoPdfBucket ∧
    (processAllMedia twoPageEnv ⟨false⟩
        (processAllMedia twoPageEnv ⟨false⟩ twoPdfBucket).1).2.1 =
      ⟨0, (enumeratedObjects twoPageEnv.pages).countP (fun o => !isSidecarKey o.key),
       0⟩ :=
  ⟨by decide, by decide, by decide,
   second_run_all_skipped twoPageEnv twoPdfBucket (by decide) (by decide) (by decide)⟩
